import Mathlib

/-! # go-mfire: the vrf token pipeline and its LRU cache

A shallow embedding of `pkg/mfire/vrf.go`.

* Go `byte` is `Fin 256`; the conversion `byte(x)` of an `int` is `x % 256`.
* Go `string` and `[]byte` are both `List Byte` (a Go string is a byte
  sequence, so `[]byte(s)` is the identity).
* Go `int` is `Int` where the code subtracts (the schedule closures) and `Nat`
  where every value is a non-negative loop counter, index or table entry
  (`rc4`); no value in either place comes near the 64-bit range.
* A run-time panic (index out of range, integer division by zero) is the
  `Except.error` result of the operation that raises it.
-/

namespace Mfire

/-! ## Go basics -/

/-- Run-time panics the embedded code could raise. -/
inductive GoPanic where
  | indexOutOfRange
  | divideByZero
  | makesliceCapOutOfRange
  deriving DecidableEq, Repr

/-- A Go `error` value. -/
structure GoError where
  msg : String
  deriving DecidableEq, Repr

/-- Go `byte`. -/
abbrev Byte := Fin 256

/-- Go `string` and `[]byte`. -/
abbrev GoString := List Byte

/-- The conversion `byte(x)` of an `int`: the low eight bits. -/
def byte (x : Int) : Byte := ⟨(x % 256).toNat, by omega⟩

/-- The index expression `l[i]`, which panics when `i` is out of range. -/
def idx {α : Type} (l : List α) (i : Nat) : Except GoPanic α :=
  match l[i]? with
  | some a => .ok a
  | none => .error .indexOutOfRange

/-- The assignment `l[i] = a`, which panics when `i` is out of range. -/
def setIdx {α : Type} (l : List α) (i : Nat) (a : α) : Except GoPanic (List α) :=
  if i < l.length then .ok (l.set i a) else .error .indexOutOfRange

/-- The remainder `a % b` of non-negative ints, which panics when `b = 0`. -/
def goMod (a b : Nat) : Except GoPanic Nat :=
  if b = 0 then .error .divideByZero else .ok (a % b)

/-- Bytes of an ASCII/UTF-8 string literal. -/
def str (s : String) : GoString :=
  (s.toList.flatMap String.utf8EncodeChar).map (fun b => Fin.ofNat b.toNat)

/-! ## rc4 -/

/-- The tuple assignment `s[i], s[j] = s[j], s[i]`: both right-hand sides are
read first, then `s[i]` and `s[j]` are written in that order. -/
def swapIdx (s : List Nat) (i j : Nat) : Except GoPanic (List Nat) := do
  let sj ← idx s j
  let si ← idx s i
  let s ← setIdx s i sj
  setIdx s j si

/-- One iteration of the key-scheduling loop of `rc4`, on the pair `(s, j)`. -/
def ksaStep (key : GoString) (st : List Nat × Nat) (i : Nat) :
    Except GoPanic (List Nat × Nat) := do
  let si ← idx st.1 i
  let ki ← goMod i key.length
  let kb ← idx key ki
  let j := (st.2 + si + (kb.val &&& 0xFF)) &&& 0xFF
  let s ← swapIdx st.1 i j
  pure (s, j)

/-- The state of the generation loop of `rc4`. -/
structure PrgaState where
  s : List Nat
  i : Nat
  j : Nat
  out : List Byte

/-- One iteration of the generation loop of `rc4`, at output position `y`. -/
def prgaStep (input : GoString) (st : PrgaState) (y : Nat) : Except GoPanic PrgaState := do
  let i := (st.i + 1) &&& 0xFF
  let si ← idx st.s i
  let j := (st.j + si) &&& 0xFF
  let s ← swapIdx st.s i j
  let si ← idx s i
  let sj ← idx s j
  let k ← idx s ((si + sj) &&& 0xFF)
  let b ← idx input y
  let out ← setIdx st.out y (byte ((b.val ^^^ k : Nat) : Int))
  pure { s := s, i := i, j := j, out := out }

/-- The function `rc4(key, input)`. -/
def rc4 (key input : GoString) : Except GoPanic GoString := do
  let s := List.range 256
  let (s, _) ← (List.range 256).foldlM (ksaStep key) (s, 0)
  let out : List Byte := List.replicate input.length 0
  let st ← (List.range input.length).foldlM (prgaStep input)
    { s := s, i := 0, j := 0, out := out }
  pure st.out

/-! ## transform and the five schedules -/

/-- One iteration of the loop of `transform`, at index `i`, on the output built
so far. -/
def transformStep (input initSeedBytes prefixKeyBytes : GoString) (prefixLen : Int)
    (schedule : List (Int → Int)) (out : GoString) (i : Nat) : Except GoPanic GoString := do
  let out ←
    if (i : Int) < prefixLen then do
      let p ← idx prefixKeyBytes i
      pure (out ++ [p])
    else pure out
  let f ← idx schedule (i % 10)
  let b ← idx input i
  let sd ← idx initSeedBytes (i % 32)
  let transformed := Int.land (f (Int.land (Int.xor (b.val : Int) (sd.val : Int)) 0xFF)) 0xFF
  pure (out ++ [byte transformed])

/-- The function `transform(input, initSeedBytes, prefixKeyBytes, prefixLen, schedule)`.
`make([]byte, 0, n)` panics when the capacity `n` is negative. -/
def transform (input initSeedBytes prefixKeyBytes : GoString) (prefixLen : Int)
    (schedule : List (Int → Int)) : Except GoPanic GoString := do
  if (input.length : Int) + prefixLen < 0 then throw GoPanic.makesliceCapOutOfRange
  (List.range input.length).foldlM
    (transformStep input initSeedBytes prefixKeyBytes prefixLen schedule) []

/-- The schedule entry `((c << 4) | (c >> 4)) & 0xFF`. -/
def rotl4 (c : Int) : Int := Int.land (Int.lor (c <<< (4 : Int)) (Int.shiftRight c 4)) 0xFF

def makeScheduleC : List (Int → Int) := [
  fun c => Int.land (c - 48 + 256) 0xFF,
  fun c => Int.land (c - 19 + 256) 0xFF,
  fun c => Int.land (Int.xor c 241) 0xFF,
  fun c => Int.land (c - 19 + 256) 0xFF,
  fun c => Int.land (c + 223) 0xFF,
  fun c => Int.land (c - 19 + 256) 0xFF,
  fun c => Int.land (c - 170 + 256) 0xFF,
  fun c => Int.land (c - 19 + 256) 0xFF,
  fun c => Int.land (c - 48 + 256) 0xFF,
  fun c => Int.land (Int.xor c 8) 0xFF]

def makeScheduleY : List (Int → Int) := [
  rotl4,
  fun c => Int.land (c + 223) 0xFF,
  rotl4,
  fun c => Int.land (Int.xor c 163) 0xFF,
  fun c => Int.land (c - 48 + 256) 0xFF,
  fun c => Int.land (c + 82) 0xFF,
  fun c => Int.land (c + 223) 0xFF,
  fun c => Int.land (c - 48 + 256) 0xFF,
  fun c => Int.land (Int.xor c 83) 0xFF,
  rotl4]

def makeScheduleB : List (Int → Int) := [
  fun c => Int.land (c - 19 + 256) 0xFF,
  fun c => Int.land (c + 82) 0xFF,
  fun c => Int.land (c - 48 + 256) 0xFF,
  fun c => Int.land (c - 170 + 256) 0xFF,
  rotl4,
  fun c => Int.land (c - 48 + 256) 0xFF,
  fun c => Int.land (c - 170 + 256) 0xFF,
  fun c => Int.land (Int.xor c 8) 0xFF,
  fun c => Int.land (c + 82) 0xFF,
  fun c => Int.land (Int.xor c 163) 0xFF]

def makeScheduleJ : List (Int → Int) := [
  fun c => Int.land (c + 223) 0xFF,
  rotl4,
  fun c => Int.land (c + 223) 0xFF,
  fun c => Int.land (Int.xor c 83) 0xFF,
  fun c => Int.land (c - 19 + 256) 0xFF,
  fun c => Int.land (c + 223) 0xFF,
  fun c => Int.land (c - 170 + 256) 0xFF,
  fun c => Int.land (c + 223) 0xFF,
  fun c => Int.land (c - 170 + 256) 0xFF,
  fun c => Int.land (Int.xor c 83) 0xFF]

def makeScheduleE : List (Int → Int) := [
  fun c => Int.land (c + 82) 0xFF,
  fun c => Int.land (Int.xor c 83) 0xFF,
  fun c => Int.land (Int.xor c 163) 0xFF,
  fun c => Int.land (c + 82) 0xFF,
  fun c => Int.land (c - 170 + 256) 0xFF,
  fun c => Int.land (Int.xor c 8) 0xFF,
  fun c => Int.land (Int.xor c 241) 0xFF,
  fun c => Int.land (c + 82) 0xFF,
  fun c => Int.land (c + 176) 0xFF,
  rotl4]

/-! ## The standard library: encoding/base64 and strings -/

/-- The alphabet of `base64.StdEncoding`. -/
def encodeStd : GoString :=
  str "ABCDEFGHIJKLMNOPQRSTUVWXYZabcdefghijklmnopqrstuvwxyz0123456789+/"

/-- The padding character `=` of `base64.StdEncoding`. -/
def padChar : Byte := 61

/-- The character of the standard alphabet for the 6-bit value `n`. -/
def encChar (n : Nat) : Byte := encodeStd.getD (n % 64) 0

/-- The 6-bit value of a character of the standard alphabet. -/
def decodeMap (c : Byte) : Option Nat :=
  let i := encodeStd.indexOf c
  if i < 64 then some i else none

/-- The method `base64.StdEncoding.EncodeToString`: three bytes give four characters, and
a final group of one or two bytes is padded with `=`. -/
def EncodeToString : GoString → GoString
  | [] => []
  | [a] => [encChar (a.val >>> 2), encChar ((a.val &&& 0x3) <<< 4), padChar, padChar]
  | [a, b] =>
    [encChar (a.val >>> 2), encChar (((a.val &&& 0x3) <<< 4) ||| (b.val >>> 4)),
      encChar ((b.val &&& 0xF) <<< 2), padChar]
  | a :: b :: c :: rest =>
    encChar (a.val >>> 2) :: encChar (((a.val &&& 0x3) <<< 4) ||| (b.val >>> 4)) ::
      encChar (((b.val &&& 0xF) <<< 2) ||| (c.val >>> 6)) :: encChar (c.val &&& 0x3F) ::
      EncodeToString rest

/-- The `base64.CorruptInputError` of a failed decode (its offset is not
modelled). -/
def corruptInput : GoError := ⟨"illegal base64 data"⟩

/-- The quanta of `base64.StdEncoding.DecodeString`, on input without line
breaks: the bytes decoded before the first error, and that error. -/
def decodeQuanta : GoString → GoString × Option GoError
  | [] => ([], none)
  | a :: b :: c :: d :: rest =>
    match decodeMap a, decodeMap b with
    | some x, some y =>
      if c = padChar then
        if d = padChar then
          ([byte (((x <<< 2) ||| (y >>> 4) : Nat) : Int)],
            if rest = [] then none else some corruptInput)
        else ([], some corruptInput)
      else
        match decodeMap c with
        | none => ([], some corruptInput)
        | some z =>
          if d = padChar then
            ([byte (((x <<< 2) ||| (y >>> 4) : Nat) : Int),
              byte (((y <<< 4) ||| (z >>> 2) : Nat) : Int)],
              if rest = [] then none else some corruptInput)
          else
            match decodeMap d with
            | none => ([], some corruptInput)
            | some w =>
              let r := decodeQuanta rest
              (byte (((x <<< 2) ||| (y >>> 4) : Nat) : Int) ::
                byte (((y <<< 4) ||| (z >>> 2) : Nat) : Int) ::
                byte (((z <<< 6) ||| w : Nat) : Int) :: r.1, r.2)
    | _, _ => ([], some corruptInput)
  | _ => ([], some corruptInput)

/-- The method `base64.StdEncoding.DecodeString`: carriage returns and line feeds are
skipped. -/
def DecodeString (s : GoString) : GoString × Option GoError :=
  decodeQuanta (s.filter (fun c => c ≠ 13 ∧ c ≠ 10))

/-- The scan of `strings.ReplaceAll` for a non-empty `old`: `skip` counts the
bytes of a matched occurrence still to be passed over. -/
def replaceScan (old new : GoString) : Nat → GoString → GoString
  | _, [] => []
  | skip + 1, _ :: cs => replaceScan old new skip cs
  | 0, c :: cs =>
    if old.isPrefixOf (c :: cs) then new ++ replaceScan old new (old.length - 1) cs
    else c :: replaceScan old new 0 cs

/-- The function `strings.ReplaceAll(s, old, new)` for a non-empty `old`, the only use this
package makes of it: the non-overlapping occurrences of `old`, found from the
left, are replaced by `new`. (For an empty `old` Go inserts `new` around every
rune; that case is left as the identity here.) -/
def ReplaceAll (s old new : GoString) : GoString :=
  if old = [] then s else replaceScan old new 0 s

/-- The function `strings.TrimRight(s, cutset)` for a cutset of ASCII characters: the
trailing bytes that occur in `cutset` are removed. -/
def TrimRight (s cutset : GoString) : GoString :=
  s.rdropWhile (fun c => decide (c ∈ cutset))

/-! ## atob, btoa and the key material -/

def atob (s : GoString) : GoString × Option GoError :=
  DecodeString s

def btoa (b : GoString) : GoString :=
  let s := EncodeToString b
  let s := ReplaceAll s (str "+") (str "-")
  let s := ReplaceAll s (str "/") (str "_")
  let s := TrimRight s (str "=")
  s

/-- The map `rc4Keys`; a missing key reads as the empty string. -/
def rc4Keys (k : String) : GoString :=
  if k = "l" then str "u8cBwTi1CM4XE3BkwG5Ble3AxWgnhKiXD9Cr279yNW0="
  else if k = "g" then str "t00NOJ/Fl3wZtez1xU6/YvcWDoXzjrDHJLL2r/IWgcY="
  else if k = "B" then str "S7I+968ZY4Fo3sLVNH/ExCNq7gjuOHjSRgSqh6SsPJc="
  else if k = "m" then str "7D4Q8i8dApRj6UWxXbIBEa1UqvjI+8W0UvPH9talJK8="
  else if k = "F" then str "0JsmfWZA1kwZeWLk5gfV5g41lwLL72wHbam5ZPfnOVE="
  else []

/-- The map `seeds32`. -/
def seeds32 (k : String) : GoString :=
  if k = "A" then str "pGjzSCtS4izckNAOhrY5unJnO2E1VbrU+tXRYG24vTo="
  else if k = "V" then str "dFcKX9Qpu7mt/AD6mb1QF4w+KqHTKmdiqp7penubAKI="
  else if k = "N" then str "owp1QIY/kBiRWrRn9TLN2CdZsLeejzHhfJwdiQMjg3w="
  else if k = "P" then str "H1XbRvXOvZAhyyPaO68vgIUgdAHn68Y6mrwkpIpEue8="
  else if k = "k" then str "2Nmobf/mpQ7+Dxq1/olPSDj3xV8PZkPbKaucJvVckL0="
  else []

/-- The map `prefixKeys`. -/
def prefixKeys (k : String) : GoString :=
  if k = "O" then str "Rowe+rg/0g=="
  else if k = "v" then str "8cULcnOMJVY8AA=="
  else if k = "L" then str "n2+Og2Gth8Hh"
  else if k = "p" then str "aRpvzH+yoA=="
  else if k = "W" then str "ZB4oBi0="
  else []

/-- The function `generateNoCache(input)`: the decode errors of `atob` are discarded, as in
the source. -/
def generateNoCache (input : GoString) : Except GoPanic (GoString × Option GoError) := do
  let bytes := input
  -- rc4 1
  let k1 := (atob (rc4Keys "l")).1
  let bytes ← rc4 k1 bytes
  -- step C1
  let seedA := (atob (seeds32 "A")).1
  let prefO := (atob (prefixKeys "O")).1
  let bytes ← transform bytes seedA prefO 7 makeScheduleC
  -- rc4 2
  let k2 := (atob (rc4Keys "g")).1
  let bytes ← rc4 k2 bytes
  -- step Y
  let seedV := (atob (seeds32 "V")).1
  let prefV := (atob (prefixKeys "v")).1
  let bytes ← transform bytes seedV prefV 10 makeScheduleY
  -- rc4 3
  let k3 := (atob (rc4Keys "B")).1
  let bytes ← rc4 k3 bytes
  -- step B
  let seedN := (atob (seeds32 "N")).1
  let prefL := (atob (prefixKeys "L")).1
  let bytes ← transform bytes seedN prefL 9 makeScheduleB
  -- rc4 4
  let k4 := (atob (rc4Keys "m")).1
  let bytes ← rc4 k4 bytes
  -- step J
  let seedP := (atob (seeds32 "P")).1
  let prefP := (atob (prefixKeys "p")).1
  let bytes ← transform bytes seedP prefP 7 makeScheduleJ
  -- rc4 5
  let k5 := (atob (rc4Keys "F")).1
  let bytes ← rc4 k5 bytes
  -- step E
  let seedK := (atob (seeds32 "k")).1
  let prefW := (atob (prefixKeys "W")).1
  let bytes ← transform bytes seedK prefW 5 makeScheduleE
  -- base64url encode
  pure (btoa bytes, none)

/-! ## The LRU cache

`vrfCache` holds a `container/list` recency list (front = most recently used)
and a map from key to list element. A `*list.Element` is represented by the
element it points to: an element and the `*cacheEntry` it carries are never
written after they are created, so the pointer and its target carry the same
information. The map is a finite map with unique keys (`AList`). The mutexes
are not modelled: operations run one after the other. -/

structure cacheEntry where
  key : GoString
  value : GoString
  deriving DecidableEq

/-- A `list.Element`, carrying a `*cacheEntry` in its `Value`. -/
structure Element where
  Value : cacheEntry
  deriving DecidableEq

/-- The method `l.PushFront(v)`: the new element and the list with it at the front. -/
def PushFront (l : List Element) (v : cacheEntry) : Element × List Element :=
  (⟨v⟩, ⟨v⟩ :: l)

/-- The method `l.MoveToFront(e)`; the list is not modified when `e` is not one of its
elements. -/
def MoveToFront (l : List Element) (e : Element) : List Element :=
  if e ∈ l then e :: l.erase e else l

/-- The method `l.Back()`, which is `nil` for an empty list. -/
def Back (l : List Element) : Option Element := l.getLast?

/-- The method `l.Remove(e)`. -/
def Remove (l : List Element) (e : Element) : List Element := l.erase e

/-- The method `l.Len()`. -/
def Len (l : List Element) : Int := (l.length : Int)

/-- The type `map[string]*list.Element`. -/
abbrev ElementMap := AList (fun _ : GoString => Element)

structure vrfCache where
  ll : List Element
  cache : ElementMap
  capacity : Int

def newVrfCache (cap : Int) : vrfCache :=
  { ll := [], cache := ∅, capacity := cap }

/-- A compute function `func() (string, error)`: it may panic, and it may act
on a world `σ` outside the cache (a call counter, say), which makes its
invocation observable. -/
abbrev ComputeFn (σ : Type) := σ → Except GoPanic ((GoString × Option GoError) × σ)

/-- The first critical section of `getOrCompute`: on a hit the element moves to
the front and its value is returned. -/
def lookupStep (c : vrfCache) (key : GoString) : Option (GoString × vrfCache) :=
  match c.cache.lookup key with
  | some el => some (el.Value.value, { c with ll := MoveToFront c.ll el })
  | none => none

/-- The second critical section of `getOrCompute`, entered after a successful
compute that returned `val`: the key is looked up again, and when still absent
it is inserted at the front, the back element being evicted when the list has
grown beyond the capacity. -/
def insertStep (c : vrfCache) (key val : GoString) : GoString × vrfCache :=
  match c.cache.lookup key with
  | some el => (el.Value.value, { c with ll := MoveToFront c.ll el })
  | none =>
    let ent : cacheEntry := { key := key, value := val }
    let (el, ll) := PushFront c.ll ent
    let cache := c.cache.insert key el
    if Len ll > c.capacity then
      match Back ll with
      | some tail =>
        (val, { c with ll := Remove ll tail, cache := cache.erase tail.Value.key })
      | none => (val, { c with ll := ll, cache := cache })
    else (val, { c with ll := ll, cache := cache })

/-- The method `c.getOrCompute(key, computeFn)` started in world `w`: the returned pair,
the cache and the world afterwards. -/
def getOrCompute {σ : Type} (c : vrfCache) (key : GoString) (computeFn : ComputeFn σ) (w : σ) :
    Except GoPanic ((GoString × Option GoError) × vrfCache × σ) :=
  match lookupStep c key with
  | some (val, c') => .ok ((val, none), c', w)
  | none =>
    match computeFn w with
    | .error p => .error p
    | .ok ((val, err), w') =>
      match err with
      | some e => .ok (([], some e), c, w')
      | none =>
        let r := insertStep c key val
        .ok ((r.1, none), r.2, w')

/-! ## The package-level cache -/

/-- The package variables `DefaultVrfCacheSize` and `defaultVrfCache` (a
pointer, `nil` before `init`). -/
structure Pkg where
  DefaultVrfCacheSize : Int
  defaultVrfCache : Option vrfCache

/-- The package variables as declared, before `init` runs. -/
def pkgVars : Pkg := { DefaultVrfCacheSize := 1024, defaultVrfCache := none }

/-- The function `init()`; `env` is the value of the environment variable
`MGFIRE_VRF_CACHE_SIZE` (empty when unset) and `Atoi` is `strconv.Atoi`. -/
def init (env : GoString) (Atoi : GoString → Int × Option GoError) : Pkg :=
  let p := pkgVars
  let p :=
    if env ≠ [] then
      match Atoi env with
      | (v, none) => if v > 0 then { p with DefaultVrfCacheSize := v } else p
      | (_, some _) => p
    else p
  { p with defaultVrfCache := some (newVrfCache p.DefaultVrfCacheSize) }

/-- The closure `func() (string, error) { return generateNoCache(input) }` that
`GenerateVrf` hands to the cache; it touches nothing outside the cache. -/
def vrfCompute (input : GoString) : ComputeFn Unit :=
  fun u => (generateNoCache input).map (fun r => (r, u))

/-- The function `GenerateVrf(input)`: the returned pair and the package state afterwards.
The cache pointer is read first, and a `nil` pointer is replaced by a new cache
of the default size. -/
def GenerateVrf (p : Pkg) (input : GoString) :
    Except GoPanic ((GoString × Option GoError) × Pkg) :=
  let cp : vrfCache × Pkg :=
    match p.defaultVrfCache with
    | some c => (c, p)
    | none =>
      let c := newVrfCache p.DefaultVrfCacheSize
      (c, { p with defaultVrfCache := some c })
  match getOrCompute cp.1 input (vrfCompute input) () with
  | .error e => .error e
  | .ok (r, c, _) => .ok (r, { cp.2 with defaultVrfCache := some c })

def SetVrfCacheSize (p : Pkg) (size : Int) : Pkg :=
  if size ≤ 0 then p
  else { DefaultVrfCacheSize := size, defaultVrfCache := some (newVrfCache size) }

def GetVrfCacheSize (p : Pkg) : Int :=
  match p.defaultVrfCache with
  | none => p.DefaultVrfCacheSize
  | some c => c.capacity

/-- The package states reachable from `init` by calls of `GenerateVrf` and
`SetVrfCacheSize`. -/
inductive Reachable : Pkg → Prop where
  | init (env : GoString) (Atoi : GoString → Int × Option GoError) : Reachable (init env Atoi)
  | generate {p p' : Pkg} {input : GoString} {r : GoString × Option GoError} :
    Reachable p → GenerateVrf p input = .ok (r, p') → Reachable p'
  | setSize {p : Pkg} (size : Int) : Reachable p → Reachable (SetVrfCacheSize p size)

/-- One call of `getOrCompute` in a sequence: the key and the compute function. -/
abbrev Call (σ : Type) := GoString × ComputeFn σ

/-- The pairs (cache, world) reachable from `(c₀, w₀)` by calls of
`getOrCompute` that return. -/
inductive ReachableFrom {σ : Type} (c₀ : vrfCache) (w₀ : σ) : vrfCache → σ → Prop where
  | start : ReachableFrom c₀ w₀ c₀ w₀
  | call {c c' : vrfCache} {w w' : σ} {r : GoString × Option GoError} (op : Call σ) :
    ReachableFrom c₀ w₀ c w → getOrCompute c op.1 op.2 w = .ok (r, c', w') →
    ReachableFrom c₀ w₀ c' w'

/-! ## Definitions used to state the claims -/

/-- The byte `T(i)` that `transform` derives from `input[i]`. -/
def specT (input seed : GoString) (schedule : List (Int → Int)) (i : Nat) : Byte :=
  byte ((schedule.getD (i % 10) id)
    ((((input.getD i 0).val ^^^ (seed.getD (i % 32) 0).val) % 256 : Nat) : Int) % 256)

/-- The bytes that iteration `i` of `transform` appends. -/
def block (input seed pre : GoString) (p : Nat) (schedule : List (Int → Int)) (i : Nat) :
    GoString :=
  if i < p then [pre.getD i 0, specT input seed schedule i] else [specT input seed schedule i]

/-- The output of `transform` after `n` iterations. -/
def layout (input seed pre : GoString) (p : Nat) (schedule : List (Int → Int)) (n : Nat) :
    GoString :=
  (List.range n).flatMap (block input seed pre p schedule)

/-- The substitution of the URL-safe alphabet: `+` becomes `-` and `/` becomes
`_`. -/
def urlSubst (c : Byte) : Byte := if c = 43 then 45 else if c = 47 then 95 else c

/-- The encoder as the specification words it: the standard padded base64
encoding, with `+` and `/` substituted and the trailing `=` removed. -/
def specBtoa (b : GoString) : GoString :=
  ((EncodeToString b).map urlSubst).rdropWhile (fun c => c = padChar)

/-- The characters `A-Z`, `a-z`, `0-9`, `-` and `_`. -/
def isUrlSafe (c : Byte) : Bool :=
  (65 ≤ c.val && c.val ≤ 90) || (97 ≤ c.val && c.val ≤ 122) || (48 ≤ c.val && c.val ≤ 57) ||
    c.val == 45 || c.val == 95

/-- The unpadded URL-safe encoding, group by group. -/
def rawUrl : GoString → GoString
  | [] => []
  | [a] => [urlSubst (encChar (a.val >>> 2)), urlSubst (encChar ((a.val &&& 0x3) <<< 4))]
  | [a, b] =>
    [urlSubst (encChar (a.val >>> 2)),
      urlSubst (encChar (((a.val &&& 0x3) <<< 4) ||| (b.val >>> 4))),
      urlSubst (encChar ((b.val &&& 0xF) <<< 2))]
  | a :: b :: c :: rest =>
    urlSubst (encChar (a.val >>> 2)) ::
      urlSubst (encChar (((a.val &&& 0x3) <<< 4) ||| (b.val >>> 4))) ::
      urlSubst (encChar (((b.val &&& 0xF) <<< 2) ||| (c.val >>> 6))) ::
      urlSubst (encChar (c.val &&& 0x3F)) :: rawUrl rest
/-- The key of a list element, `el.Value.(*cacheEntry).key`. -/
def Element.key (el : Element) : GoString := el.Value.key

/-- The element that carries the entry `(key, value)`. -/
def Element.of (key value : GoString) : Element := ⟨⟨key, value⟩⟩

/-- The keys of the recency list, front to back. -/
def vrfCache.keys (c : vrfCache) : List GoString := c.ll.map Element.key

/-- The number of keys of the map, `len(c.cache)`. -/
def vrfCache.mapLen (c : vrfCache) : Nat := c.cache.entries.length

/-- The representation invariant of `vrfCache`: the recency list holds at most
one element per key, and the map sends a key to an element exactly when that
element is in the list and carries that key. -/
structure WellFormed (c : vrfCache) : Prop where
  nodup : c.keys.Nodup
  agree : ∀ k el, c.cache.lookup k = some el ↔ (el ∈ c.ll ∧ el.key = k)

/-- Every cached value is the token the pipeline derives for its key. -/
def CacheSound (c : vrfCache) : Prop :=
  ∀ k el, c.cache.lookup k = some el → generateNoCache k = .ok (el.Value.value, none)

/-- A sequence of `getOrCompute` calls, run one after the other. -/
def runCalls {σ : Type} (c : vrfCache) (w : σ) : List (Call σ) → Except GoPanic (vrfCache × σ)
  | [] => .ok (c, w)
  | op :: ops =>
    match getOrCompute c op.1 op.2 w with
    | .error p => .error p
    | .ok (_, c', w') => runCalls c' w' ops

/-- A compute function that succeeds in every world. -/
def Succeeds {σ : Type} (f : ComputeFn σ) : Prop :=
  ∀ w, ∃ v w', f w = .ok ((v, none), w')

/-- A compute function that returns `v` and counts its invocations. -/
def countingCompute (v : GoString) : ComputeFn Nat :=
  fun n => .ok ((v, none), n + 1)

/-- The cache after `PushFront` of a new entry and the map assignment. -/
def pushed (c : vrfCache) (key val : GoString) : vrfCache :=
  { c with ll := Element.of key val :: c.ll, cache := c.cache.insert key (Element.of key val) }

/-- The cache after `Remove` of the element `t` and `delete` of its key. -/
def evicted (c : vrfCache) (t : Element) : vrfCache :=
  { c with ll := c.ll.erase t, cache := c.cache.erase t.Value.key }

/-- The cache after a hit on the element `el`. -/
def promoted (c : vrfCache) (el : Element) : vrfCache :=
  { c with ll := MoveToFront c.ll el }

/-- Every value in the package-level cache is the token of its key. -/
def PkgSound (p : Pkg) : Prop :=
  ∀ c, p.defaultVrfCache = some c → CacheSound c

/-- A `strconv.Atoi` stand-in for a process without the environment variable. -/
def noAtoi : GoString → Int × Option GoError := fun _ => (0, some ⟨"parsing failed"⟩)

/-- The package state after `init` with `MGFIRE_VRF_CACHE_SIZE` unset. -/
def pkg₀ : Pkg := init [] noAtoi

/-- The package state after a call `GenerateVrf(input)` made in the state `p`
(the state `p` itself should the call panic). -/
def stateAfter (p : Pkg) (input : GoString) : Pkg :=
  match GenerateVrf p input with
  | .ok (_, p') => p'
  | .error _ => p

/-- The package state after `init` and one call `GenerateVrf("a")`: the cache
then holds the entry for `"a"`. -/
def pkgAfterA : Pkg := stateAfter pkg₀ (str "a")

/-- A cache of capacity 2 holding `"b"` (front) and `"a"` (back). -/
def sampleCache : vrfCache :=
  { ll := [Element.of [98] [2], Element.of [97] [1]]
    cache := (AList.insert [98] (Element.of [98] [2])
      (AList.insert [97] (Element.of [97] [1]) ∅))
    capacity := 2 }

/-- A package state whose cache holds two entries. -/
def samplePkg : Pkg := { DefaultVrfCacheSize := 2, defaultVrfCache := some sampleCache }

/-- A compute function that fails with the error `e`. -/
def failingCompute (e : GoError) : ComputeFn Nat :=
  fun n => .ok (([], some e), n + 1)

/-- One round of the generation loop of `rc4` on the state `(s, i, j)` alone:
the two indices advance and the two entries are swapped. -/
def prgaNext (t : List Nat × Nat × Nat) : List Nat × Nat × Nat :=
  ((t.1.set ((t.2.1 + 1) &&& 0xFF)
      (t.1.getD ((t.2.2 + t.1.getD ((t.2.1 + 1) &&& 0xFF) 0) &&& 0xFF) 0)).set
    ((t.2.2 + t.1.getD ((t.2.1 + 1) &&& 0xFF) 0) &&& 0xFF)
    (t.1.getD ((t.2.1 + 1) &&& 0xFF) 0),
    (t.2.1 + 1) &&& 0xFF,
    (t.2.2 + t.1.getD ((t.2.1 + 1) &&& 0xFF) 0) &&& 0xFF)

/-- The value `k` that a round of the generation loop reads from the state it
has just updated. -/
def prgaKey (t : List Nat × Nat × Nat) : Nat :=
  t.1.getD ((t.1.getD t.2.1 0 + t.1.getD t.2.2 0) &&& 0xFF) 0

/-- The permutation that the key-scheduling loop of `rc4` leaves. -/
def ksa (key : GoString) : List Nat :=
  match (List.range 256).foldlM (ksaStep key) (List.range 256, 0) with
  | .ok st => st.1
  | .error _ => []

/-- The keystream of `rc4`: the value `k` of round `y`, a function of the key
and the position only. -/
def keystream (key : GoString) (y : Nat) : Nat :=
  prgaKey (prgaNext^[y + 1] (ksa key, 0, 0))

/-- A schedule entry is injective on bytes: two values in `0..255` with the same
transformed byte are equal. -/
def ByteInjective (f : Int → Int) : Prop :=
  ∀ a b : Nat, a < 256 → b < 256 → byte (f (a : Int) % 256) = byte (f (b : Int) % 256) → a = b

/-- Every entry of a schedule is injective on bytes. -/
def ScheduleInjective (schedule : List (Int → Int)) : Prop :=
  ∀ k, k < 10 → ByteInjective (schedule.getD k id)

/-- A schedule entry as a map on bytes: the byte `byte(f(c))` for the byte `c`. -/
def entryOnBytes (f : Int → Int) : Byte → Byte :=
  fun a => byte (f (a.val : Int))

/-- The five schedules of the package. -/
def fixedSchedules : List (List (Int → Int)) :=
  [makeScheduleC, makeScheduleY, makeScheduleB, makeScheduleJ, makeScheduleE]

deriving instance DecidableEq for Except

/-! # Theorems -/

/-! ## Loops and index operations -/

theorem idx_ok {α : Type} (l : List α) (i : Nat) (h : i < l.length) :
    idx l i = .ok (l.get ⟨i, h⟩) := by
  simp [idx, List.getElem?_eq_getElem h]

theorem setIdx_ok {α : Type} (l : List α) (i : Nat) (a : α) (h : i < l.length) :
    setIdx l i a = .ok (l.set i a) := by
  simp [setIdx, h]

theorem goMod_ok (a b : Nat) (h : b ≠ 0) : goMod a b = .ok (a % b) := by
  simp [goMod, h]

theorem land_255_lt (x : Nat) : x &&& 0xFF < 256 :=
  Nat.lt_succ_of_le Nat.and_le_right

/-- A loop over `0, …, n-1` whose body never panics under an invariant indexed
by the iteration number runs to the end and establishes the invariant at `n`. -/
theorem foldlM_range_inv {β : Type} (f : β → Nat → Except GoPanic β) (P : Nat → β → Prop)
    (n : Nat) (step : ∀ i b, i < n → P i b → ∃ b', f b i = .ok b' ∧ P (i + 1) b')
    (b₀ : β) (h₀ : P 0 b₀) :
    ∃ b', (List.range n).foldlM f b₀ = .ok b' ∧ P n b' := by
  suffices h : ∀ m, m ≤ n → ∃ b', (List.range m).foldlM f b₀ = .ok b' ∧ P m b' from h n le_rfl
  intro m
  induction m with
  | zero => intro _; exact ⟨b₀, rfl, h₀⟩
  | succ m ih =>
    intro hm
    obtain ⟨b, hb, hP⟩ := ih (Nat.le_of_succ_le hm)
    obtain ⟨b', hb', hP'⟩ := step m b hm hP
    refine ⟨b', ?_, hP'⟩
    rw [List.range_succ, List.foldlM_append, hb]
    simp [bind, Except.bind, hb', pure, Except.pure]

theorem idx_some {α : Type} (l : List α) (i : Nat) (h : i < l.length) :
    ∃ a, idx l i = .ok a :=
  ⟨_, idx_ok l i h⟩

theorem swapIdx_ok (s : List Nat) (i j : Nat) (hi : i < s.length) (hj : j < s.length) :
    ∃ s', swapIdx s i j = .ok s' ∧ s'.length = s.length := by
  obtain ⟨sj, hsj⟩ := idx_some s j hj
  obtain ⟨si, hsi⟩ := idx_some s i hi
  refine ⟨(s.set i sj).set j si, ?_, by simp⟩
  simp only [swapIdx, hsj, hsi, setIdx_ok s i _ hi, bind, Except.bind]
  exact setIdx_ok _ _ _ (by simpa using hj)

theorem ksaStep_ok (key : GoString) (hk : key ≠ []) (s : List Nat) (j i : Nat)
    (hs : s.length = 256) (hi : i < 256) :
    ∃ st, ksaStep key (s, j) i = .ok st ∧ st.1.length = 256 := by
  have hlen : key.length ≠ 0 := by simpa using hk
  have hki : i % key.length < key.length := Nat.mod_lt _ (Nat.pos_of_ne_zero hlen)
  obtain ⟨si, hsi⟩ := idx_some s i (by omega)
  obtain ⟨kb, hkb⟩ := idx_some key _ hki
  obtain ⟨s', hs', hl'⟩ := swapIdx_ok s i ((j + si + (kb.val &&& 0xFF)) &&& 0xFF)
    (by omega) (by rw [hs]; exact land_255_lt _)
  have h : ksaStep key (s, j) i = .ok (s', (j + si + (kb.val &&& 0xFF)) &&& 0xFF) := by
    simp only [ksaStep, hsi, goMod_ok i _ hlen, hkb, bind, Except.bind, hs', pure, Except.pure]
  exact ⟨_, h, by simpa [hs] using hl'⟩

theorem ksa_ok (key : GoString) (hk : key ≠ []) :
    ∃ st, (List.range 256).foldlM (ksaStep key) (List.range 256, 0) = .ok st ∧
      st.1.length = 256 :=
  foldlM_range_inv (ksaStep key) (fun _ st => st.1.length = 256) 256
    (fun i st hi hst => ksaStep_ok key hk st.1 st.2 i hst hi) _ (by simp)

theorem prgaStep_ok (input : GoString) (st : PrgaState) (y : Nat)
    (hs : st.s.length = 256) (ho : st.out.length = input.length) (hy : y < input.length) :
    ∃ st', prgaStep input st y = .ok st' ∧ st'.s.length = 256 ∧
      st'.out.length = input.length := by
  have hi : (st.i + 1) &&& 0xFF < st.s.length := by rw [hs]; exact land_255_lt _
  obtain ⟨si, hsi⟩ := idx_some st.s _ hi
  have hj : (st.j + si) &&& 0xFF < st.s.length := by rw [hs]; exact land_255_lt _
  obtain ⟨s', hs', hl'⟩ := swapIdx_ok st.s _ _ hi hj
  obtain ⟨si', hsi'⟩ := idx_some s' ((st.i + 1) &&& 0xFF) (by rw [hl']; exact hi)
  obtain ⟨sj', hsj'⟩ := idx_some s' ((st.j + si) &&& 0xFF) (by rw [hl']; exact hj)
  obtain ⟨k, hk⟩ := idx_some s' ((si' + sj') &&& 0xFF) (by rw [hl', hs]; exact land_255_lt _)
  obtain ⟨b, hb⟩ := idx_some input y hy
  have h : prgaStep input st y = .ok ⟨s', (st.i + 1) &&& 0xFF, (st.j + si) &&& 0xFF,
      st.out.set y (byte ((b.val ^^^ k : Nat) : Int))⟩ := by
    simp only [prgaStep, hsi, bind, Except.bind, hs', hsi', hsj', hk, hb,
      setIdx_ok st.out y _ (ho ▸ hy), pure, Except.pure]
  exact ⟨_, h, by simpa [hs] using hl', by simpa using ho⟩

/-- With a non-empty key `rc4` runs without a panic and returns as many bytes
as it is given. -/
theorem rc4_ok (key input : GoString) (hk : key ≠ []) :
    ∃ out, rc4 key input = .ok out ∧ out.length = input.length := by
  obtain ⟨st, hst, hl⟩ := ksa_ok key hk
  obtain ⟨st', hst', _, ho⟩ := foldlM_range_inv (prgaStep input)
    (fun _ st => st.s.length = 256 ∧ st.out.length = input.length) input.length
    (fun y st hy h => prgaStep_ok input st y h.1 h.2 hy)
    { s := st.1, i := 0, j := 0, out := List.replicate input.length 0 } ⟨hl, by simp⟩
  refine ⟨st'.out, ?_, ho⟩
  simp only [rc4, hst, bind, Except.bind, hst', pure, Except.pure]

/-- C6. For every non-empty key and every input, `rc4` terminates without an
out-of-range access to its 256-entry state (or any other panic) and returns an
output as long as the input. -/
theorem rc4_total (key input : GoString) (hk : key ≠ []) :
    ∃ out, rc4 key input = .ok out ∧ out.length = input.length :=
  rc4_ok key input hk

theorem rc4_total_witness :
    ([75, 101, 121] : GoString) ≠ [] ∧
    ∃ out, rc4 [75, 101, 121] [1, 2, 3] = .ok out ∧
      out.length = ([1, 2, 3] : GoString).length :=
  ⟨by decide, rc4_total [75, 101, 121] [1, 2, 3] (by decide)⟩

set_option maxRecDepth 100000 in
/-- C2. `rc4` reproduces the published RC4 test vector: key `"Key"` and input
`"Plaintext"` give the bytes `BB F3 16 E8 D9 40 AF 0A D3`. -/
theorem rc4_test_vector :
    rc4 (str "Key") (str "Plaintext") =
      .ok [0xBB, 0xF3, 0x16, 0xE8, 0xD9, 0x40, 0xAF, 0x0A, 0xD3] := by
  decide!

theorem sub_eq_xor_255 : ∀ m : Fin 256, 255 - m.val = 255 ^^^ m.val := by decide!

theorem ldiff_255 (n : Nat) : Nat.ldiff 255 n = 255 - n % 256 := by
  have h := sub_eq_xor_255 ⟨n % 256, Nat.mod_lt _ (by decide)⟩
  simp only at h
  rw [h]
  apply Nat.eq_of_testBit_eq
  intro k
  rw [Nat.testBit_ldiff, Nat.testBit_xor]
  have h1 : (255 : Nat).testBit k = decide (k < 8) := Nat.testBit_two_pow_sub_one 8 k
  have h2 : (n % 256).testBit k = (decide (k < 8) && n.testBit k) := Nat.testBit_mod_two_pow n 8 k
  rw [h1, h2]
  cases decide (k < 8) <;> cases n.testBit k <;> rfl

/-- On every `int`, `x & 0xFF` is the remainder of `x` modulo 256. -/
theorem land_255 (x : Int) : Int.land x 0xFF = x % 256 := by
  cases x with
  | ofNat n =>
    show ((n &&& 255 : Nat) : Int) = (n : Int) % 256
    rw [show (255 : Nat) = 2 ^ 8 - 1 from rfl, Nat.and_pow_two_sub_one_eq_mod]
    norm_num
  | negSucc n =>
    show ((Nat.ldiff 255 n : Nat) : Int) = Int.negSucc n % 256
    rw [ldiff_255, Int.negSucc_eq]
    omega

theorem xor_natCast (a b : Nat) : Int.xor (a : Int) (b : Int) = ((a ^^^ b : Nat) : Int) := rfl

theorem byte_emod (x : Int) : byte (x % 256) = byte x := by
  simp [byte]

theorem idx_getD {α : Type} (l : List α) (i : Nat) (d : α) (h : i < l.length) :
    idx l i = .ok (l.getD i d) := by
  simp [idx, List.getElem?_eq_getElem h, List.getD_eq_getElem?_getD]

theorem transformStep_eq (input seed pre : GoString) (p : Nat) (schedule : List (Int → Int))
    (out : GoString) (i : Nat) (hi : i < input.length) (hseed : seed.length = 32)
    (hsched : schedule.length = 10) (hpre : i < p → i < pre.length) :
    transformStep input seed pre (p : Int) schedule out i =
      .ok (out ++ block input seed pre p schedule i) := by
  have h10 : i % 10 < schedule.length := by omega
  have h32 : i % 32 < seed.length := by omega
  have hT : byte (Int.land (schedule.getD (i % 10) id (Int.land
      (Int.xor ((input.getD i 0).val : Int) ((seed.getD (i % 32) 0).val : Int)) 0xFF)) 0xFF) =
      specT input seed schedule i := by
    rw [specT, land_255, land_255, xor_natCast]
    norm_cast
  by_cases hip : i < p
  · have hc : ((i : Int) < (p : Int)) := by exact_mod_cast hip
    simp only [transformStep, hc, if_true, idx_getD pre i 0 (hpre hip), bind, Except.bind,
      pure, Except.pure, idx_getD schedule _ id h10, idx_getD input i 0 hi,
      idx_getD seed _ 0 h32, hT, block, hip, List.append_assoc, List.singleton_append]
  · have hc : ¬ ((i : Int) < (p : Int)) := by exact_mod_cast hip
    simp only [transformStep, hc, if_false, bind, Except.bind,
      pure, Except.pure, idx_getD schedule _ id h10, idx_getD input i 0 hi,
      idx_getD seed _ 0 h32, hT, block, hip]

theorem layout_succ (input seed pre : GoString) (p : Nat) (schedule : List (Int → Int))
    (n : Nat) : layout input seed pre p schedule (n + 1) =
      layout input seed pre p schedule n ++ block input seed pre p schedule n := by
  simp [layout, List.range_succ, List.flatMap_append]

theorem layout_length (input seed pre : GoString) (p : Nat) (schedule : List (Int → Int))
    (n : Nat) : (layout input seed pre p schedule n).length = n + min p n := by
  induction n with
  | zero => simp [layout]
  | succ n ih =>
    rw [layout_succ, List.length_append, ih]
    by_cases h : n < p
    · simp [block, h]; omega
    · simp [block, h]; omega

/-- With a 32-byte seed, a 10-entry schedule and a prefix of at least `p` bytes,
`transform` with `prefixLen = p` runs without a panic and returns the layout. -/
theorem transform_eq_layout (input seed pre : GoString) (p : Nat)
    (schedule : List (Int → Int)) (hseed : seed.length = 32) (hsched : schedule.length = 10)
    (hpre : min p input.length ≤ pre.length) :
    transform input seed pre (p : Int) schedule =
      .ok (layout input seed pre p schedule input.length) := by
  obtain ⟨out, hout, hP⟩ := foldlM_range_inv
    (transformStep input seed pre (p : Int) schedule)
    (fun n out => out = layout input seed pre p schedule n) input.length
    (fun i out hi ho => ⟨_, transformStep_eq input seed pre p schedule out i hi hseed hsched
      (fun hip => by omega), by simp only at ho; simp only [ho, layout_succ]⟩) [] (by simp [layout])
  have hneg : ¬ ((input.length : Int) + (p : Int) < 0) := by omega
  simp only [transform, hneg, if_false, hout, hP]
  rfl

theorem layout_head (input seed pre : GoString) (p : Nat) (schedule : List (Int → Int))
    (n i : Nat) (hi : i < min p n) :
    (layout input seed pre p schedule n)[2 * i]? = some (pre.getD i 0) ∧
    (layout input seed pre p schedule n)[2 * i + 1]? = some (specT input seed schedule i) := by
  induction n with
  | zero => simp at hi
  | succ n ih =>
    have hlen := layout_length input seed pre p schedule n
    rw [layout_succ]
    by_cases h : i < min p n
    · obtain ⟨h0, h1⟩ := ih h
      have hb : 2 * i + 1 < (layout input seed pre p schedule n).length := by omega
      rw [List.getElem?_append_left (by omega), List.getElem?_append_left hb]
      exact ⟨h0, h1⟩
    · have hin : i = n := by omega
      have hnp : n < p := by omega
      subst hin
      have hl : (layout input seed pre p schedule i).length = 2 * i := by omega
      rw [List.getElem?_append_right (by omega), List.getElem?_append_right (by omega), hl]
      simp [block, hnp]

theorem layout_rest (input seed pre : GoString) (p : Nat) (schedule : List (Int → Int))
    (n i : Nat) (hm : min p n ≤ i) (hi : i < n) :
    (layout input seed pre p schedule n)[i + min p n]? =
      some (specT input seed schedule i) := by
  induction n with
  | zero => omega
  | succ n ih =>
    have hlen := layout_length input seed pre p schedule n
    have hp : p ≤ i := by omega
    rw [layout_succ]
    by_cases h : i < n
    · have hmin : min p (n + 1) = min p n := by omega
      rw [hmin, List.getElem?_append_left (by omega)]
      exact ih (by omega) h
    · have hin : i = n := by omega
      subst hin
      have hnp : ¬ i < p := by omega
      rw [List.getElem?_append_right (by omega)]
      have : i + min p (i + 1) - (layout input seed pre p schedule i).length = 0 := by omega
      rw [this]
      simp [block, hnp]

/-- C4. For every input, 32-byte seed, prefix with `len(prefix) = prefixLen` and
10-entry schedule, `transform` returns an output of length
`len(input) + min(prefixLen, len(input))`; with `prefixLen = 0` that is
`len(input)`. -/
theorem transform_length (input seed pre : GoString) (prefixLen : Int)
    (schedule : List (Int → Int)) (hseed : seed.length = 32)
    (hpre : (pre.length : Int) = prefixLen) (hsched : schedule.length = 10) :
    ∃ out, transform input seed pre prefixLen schedule = .ok out ∧
      (out.length : Int) = (input.length : Int) + min prefixLen (input.length : Int) ∧
      (prefixLen = 0 → out.length = input.length) := by
  subst hpre
  refine ⟨_, transform_eq_layout input seed pre pre.length schedule hseed hsched (by omega),
    ?_, ?_⟩
  · rw [layout_length]; omega
  · intro h0
    rw [layout_length]; omega

theorem transform_length_witness :
    (List.replicate 32 (7 : Byte)).length = 32 ∧
    (([70, 140, 30] : GoString).length : Int) = 3 ∧ makeScheduleC.length = 10 ∧
    ∃ out, transform [1, 2, 3, 4, 5] (List.replicate 32 7) [70, 140, 30] 3 makeScheduleC =
        .ok out ∧
      (out.length : Int) = (([1, 2, 3, 4, 5] : GoString).length : Int) +
        min 3 (([1, 2, 3, 4, 5] : GoString).length : Int) ∧
      ((3 : Int) = 0 → out.length = ([1, 2, 3, 4, 5] : GoString).length) :=
  ⟨by decide, by decide, by decide,
    transform_length [1, 2, 3, 4, 5] (List.replicate 32 7) [70, 140, 30] 3 makeScheduleC
      (by decide) (by decide) (by decide)⟩

/-- C5. Prefix interleaving: with `m = min(prefixLen, len(input))`, the output of
`transform` has `out[2i] = prefix[i]` and `out[2i+1] = T(i)` for `i < m`, and
`out[i + m] = T(i)` for `m ≤ i < len(input)`, where `T(i)` is
`schedule[i mod 10]((input[i] XOR seed[i mod 32]) mod 256) mod 256`. -/
theorem transform_interleaves (input seed pre : GoString) (prefixLen : Int)
    (schedule : List (Int → Int)) (hseed : seed.length = 32)
    (hpre : (pre.length : Int) = prefixLen) (hsched : schedule.length = 10) :
    ∃ out, transform input seed pre prefixLen schedule = .ok out ∧
      out.length = input.length + min pre.length input.length ∧
      (∀ i, i < min pre.length input.length →
        out[2 * i]? = pre[i]? ∧ out[2 * i + 1]? = some (specT input seed schedule i)) ∧
      (∀ i, min pre.length input.length ≤ i → i < input.length →
        out[i + min pre.length input.length]? = some (specT input seed schedule i)) := by
  subst hpre
  refine ⟨_, transform_eq_layout input seed pre pre.length schedule hseed hsched (by omega),
    ?_, ?_, ?_⟩
  · rw [layout_length]
  · intro i hi
    obtain ⟨h0, h1⟩ := layout_head input seed pre pre.length schedule input.length i hi
    refine ⟨?_, h1⟩
    rw [h0, List.getD_eq_getElem?_getD, List.getElem?_eq_getElem (by omega)]
    rfl
  · intro i hm hi
    exact layout_rest input seed pre pre.length schedule input.length i hm hi

theorem transform_interleaves_witness :
    (List.replicate 32 (7 : Byte)).length = 32 ∧
    (([70, 140, 30] : GoString).length : Int) = 3 ∧ makeScheduleC.length = 10 ∧
    ∃ out, transform [1, 2, 3, 4, 5] (List.replicate 32 7) [70, 140, 30] 3 makeScheduleC =
        .ok out ∧ out.length = 8 ∧
      out[0]? = some 70 ∧ out[2]? = some 140 ∧ out[4]? = some 30 ∧
      out[1]? = some (specT [1, 2, 3, 4, 5] (List.replicate 32 7) makeScheduleC 0) ∧
      out[3]? = some (specT [1, 2, 3, 4, 5] (List.replicate 32 7) makeScheduleC 1) ∧
      out[5]? = some (specT [1, 2, 3, 4, 5] (List.replicate 32 7) makeScheduleC 2) ∧
      out[6]? = some (specT [1, 2, 3, 4, 5] (List.replicate 32 7) makeScheduleC 3) ∧
      out[7]? = some (specT [1, 2, 3, 4, 5] (List.replicate 32 7) makeScheduleC 4) := by
  refine ⟨by decide, by decide, by decide, ?_⟩
  obtain ⟨out, h, hlen, hpre, hsuf⟩ := transform_interleaves [1, 2, 3, 4, 5]
    (List.replicate 32 7) [70, 140, 30] 3 makeScheduleC (by decide) (by decide) (by decide)
  have hmin : min ([70, 140, 30] : GoString).length ([1, 2, 3, 4, 5] : GoString).length = 3 := by
    decide
  rw [hmin] at hpre hsuf
  exact ⟨out, h, hlen, (hpre 0 (by decide)).1, (hpre 1 (by decide)).1, (hpre 2 (by decide)).1,
    (hpre 0 (by decide)).2, (hpre 1 (by decide)).2, (hpre 2 (by decide)).2,
    hsuf 3 (by decide) (by decide), hsuf 4 (by decide) (by decide)⟩

/-! ## The keystream of rc4 -/

theorem swapIdx_eq (s : List Nat) (i j : Nat) (hi : i < s.length) (hj : j < s.length) :
    swapIdx s i j = .ok ((s.set i (s.getD j 0)).set j (s.getD i 0)) := by
  simp only [swapIdx, idx_getD s j 0 hj, idx_getD s i 0 hi, setIdx_ok s i _ hi, bind,
    Except.bind]
  exact setIdx_ok _ _ _ (by simpa using hj)

theorem prgaNext_length (t : List Nat × Nat × Nat) : (prgaNext t).1.length = t.1.length := by
  simp [prgaNext]

theorem prgaStep_eq (input : GoString) (st : PrgaState) (y : Nat)
    (hs : st.s.length = 256) (ho : st.out.length = input.length) (hy : y < input.length) :
    prgaStep input st y = .ok ⟨(prgaNext (st.s, st.i, st.j)).1, (prgaNext (st.s, st.i, st.j)).2.1,
      (prgaNext (st.s, st.i, st.j)).2.2,
      st.out.set y (byte (((input.getD y 0).val ^^^ prgaKey (prgaNext (st.s, st.i, st.j)) : Nat) :
        Int))⟩ := by
  have hi : (st.i + 1) &&& 0xFF < st.s.length := by rw [hs]; exact land_255_lt _
  have hj : (st.j + st.s.getD ((st.i + 1) &&& 0xFF) 0) &&& 0xFF < st.s.length := by
    rw [hs]; exact land_255_lt _
  have hsw := swapIdx_eq st.s _ _ hi hj
  have hl : ((st.s.set ((st.i + 1) &&& 0xFF)
      (st.s.getD ((st.j + st.s.getD ((st.i + 1) &&& 0xFF) 0) &&& 0xFF) 0)).set
      ((st.j + st.s.getD ((st.i + 1) &&& 0xFF) 0) &&& 0xFF)
      (st.s.getD ((st.i + 1) &&& 0xFF) 0)).length = 256 := by simpa using hs
  simp only [prgaStep, idx_getD st.s _ 0 hi, bind, Except.bind, hsw,
    idx_getD _ ((st.i + 1) &&& 0xFF) 0 (hl ▸ land_255_lt _),
    idx_getD _ ((st.j + st.s.getD ((st.i + 1) &&& 0xFF) 0) &&& 0xFF) 0 (hl ▸ land_255_lt _),
    idx_getD _ _ 0 (hl ▸ land_255_lt _), idx_getD input y 0 hy,
    setIdx_ok st.out y _ (ho ▸ hy), pure, Except.pure, prgaNext, prgaKey]

theorem ksa_eq (key : GoString) (st : List Nat × Nat)
    (h : (List.range 256).foldlM (ksaStep key) (List.range 256, 0) = .ok st) :
    ksa key = st.1 := by
  unfold ksa
  rw [h]

/-- The generation loop after `m` rounds: the state is the `m`-th iterate of
`prgaNext`, and the first `m` output bytes are input XOR keystream. -/
theorem prga_loop (input : GoString) (t₀ : List Nat × Nat × Nat) (ht : t₀.1.length = 256)
    (out₀ : List Byte) (ho : out₀.length = input.length) :
    ∃ st, (List.range input.length).foldlM (prgaStep input)
        ⟨t₀.1, t₀.2.1, t₀.2.2, out₀⟩ = .ok st ∧
      st.out.length = input.length ∧
      ∀ y, y < input.length → st.out[y]? =
        some (byte (((input.getD y 0).val ^^^ prgaKey (prgaNext^[y + 1] t₀) : Nat) : Int)) := by
  obtain ⟨st, hst, -, hlen, hout⟩ := foldlM_range_inv (prgaStep input)
    (fun m st => (st.s, st.i, st.j) = prgaNext^[m] t₀ ∧ st.out.length = input.length ∧
      ∀ y, y < m → st.out[y]? =
        some (byte (((input.getD y 0).val ^^^ prgaKey (prgaNext^[y + 1] t₀) : Nat) : Int)))
    input.length
    (by
      intro m st hm hP
      obtain ⟨hstate, hlen, hout⟩ := hP
      have hs : st.s.length = 256 := by
        have : (prgaNext^[m] t₀).1.length = 256 := by
          clear hstate hout
          induction m with
          | zero => exact ht
          | succ m ih =>
            rw [Function.iterate_succ_apply', prgaNext_length]
            exact ih (Nat.lt_of_succ_lt hm)
        rw [← hstate] at this
        exact this
      refine ⟨_, prgaStep_eq input st m hs hlen hm, ?_, by simpa using hlen, ?_⟩
      · rw [Function.iterate_succ_apply', ← hstate]
      · intro y hy
        by_cases hym : y = m
        · subst hym
          rw [Function.iterate_succ_apply', ← hstate]
          simp only
          rw [List.getElem?_set_self (by rw [hlen]; exact hm)]
        · simp only
          rw [List.getElem?_set_ne (Ne.symm hym)]
          exact hout y (by omega))
    ⟨t₀.1, t₀.2.1, t₀.2.2, out₀⟩ ⟨rfl, ho, fun y hy => absurd hy (Nat.not_lt_zero y)⟩
  exact ⟨st, hst, hlen, hout⟩

/-- With a non-empty key, `rc4` returns the input XORed byte by byte with the
keystream of the key. -/
theorem rc4_eq_xor (key input : GoString) (hk : key ≠ []) :
    ∃ out, rc4 key input = .ok out ∧ out.length = input.length ∧
      ∀ y, y < input.length → out[y]? =
        some (byte (((input.getD y 0).val ^^^ keystream key y : Nat) : Int)) := by
  obtain ⟨st, hst, hl⟩ := ksa_ok key hk
  have hksa := ksa_eq key st hst
  obtain ⟨st', hst', hlen, hout⟩ := prga_loop input (st.1, 0, 0) hl
    (List.replicate input.length 0) (by simp)
  refine ⟨st'.out, ?_, hlen, ?_⟩
  · simp only [rc4, hst, bind, Except.bind, hst', pure, Except.pure]
  · intro y hy
    rw [hout y hy, keystream, hksa]

theorem byte_natCast_val (n : Nat) : (byte (n : Int)).val = n % 256 := by
  simp only [byte]
  omega

theorem xor_mod_256 (a b : Nat) : (a ^^^ b) % 256 = (a % 256) ^^^ (b % 256) := by
  apply Nat.eq_of_testBit_eq
  intro i
  have h1 := Nat.testBit_mod_two_pow (a ^^^ b) 8 i
  have h2 := Nat.testBit_mod_two_pow a 8 i
  have h3 := Nat.testBit_mod_two_pow b 8 i
  simp only [show (2 : Nat) ^ 8 = 256 from rfl] at h1 h2 h3
  rw [h1, Nat.testBit_xor, Nat.testBit_xor, h2, h3]
  cases decide (i < 8) <;> cases a.testBit i <;> cases b.testBit i <;> rfl

/-- XOR with the same keystream value twice gives the byte back. -/
theorem byte_xor_cancel (a : Byte) (k : Nat) :
    byte ((((byte ((a.val ^^^ k : Nat) : Int)).val ^^^ k : Nat)) : Int) = a := by
  apply Fin.ext
  rw [byte_natCast_val, byte_natCast_val, xor_mod_256, Nat.mod_mod, xor_mod_256,
    Nat.xor_cancel_right]
  exact Nat.mod_eq_of_lt a.isLt

theorem getD_of_getElem? {α : Type} (l : List α) (i : Nat) (d a : α) (h : l[i]? = some a) :
    l.getD i d = a := by
  simp [List.getD_eq_getElem?_getD, h]

/-- The involution of `rc4`, from its XOR form. -/
theorem rc4_rc4 (key x : GoString) (hk : key ≠ []) :
    ∃ y, rc4 key x = .ok y ∧ y.length = x.length ∧ rc4 key y = .ok x := by
  obtain ⟨y, hy, hlen, hval⟩ := rc4_eq_xor key x hk
  obtain ⟨z, hz, hlen', hval'⟩ := rc4_eq_xor key y hk
  have hzx : z = x := by
    apply List.ext_getElem?
    intro i
    by_cases hi : i < x.length
    · rw [hval' i (by rw [hlen]; exact hi), getD_of_getElem? y i 0 _ (hval i hi),
        byte_xor_cancel, List.getD_eq_getElem?_getD, List.getElem?_eq_getElem hi]
      rfl
    · rw [List.getElem?_eq_none (by omega), List.getElem?_eq_none (by omega)]
  subst hzx
  exact ⟨y, hy, hlen, hz⟩

/-- For a fixed non-empty key `rc4` is injective. -/
theorem rc4_inj (key x x' out : GoString) (hk : key ≠ [])
    (h : rc4 key x = .ok out) (h' : rc4 key x' = .ok out) : x = x' := by
  obtain ⟨y, hy, -, hback⟩ := rc4_rc4 key x hk
  obtain ⟨y', hy', -, hback'⟩ := rc4_rc4 key x' hk
  rw [h] at hy
  rw [h'] at hy'
  simp only [Except.ok.injEq] at hy hy'
  subst hy
  subst hy'
  rw [hback] at hback'
  simpa using hback'

/-- C16. The function `rc4` is its own inverse: for every non-empty key and
every byte sequence `x`, `rc4(key, rc4(key, x)) = x`; the output is the input
XORed byte by byte with a keystream that depends only on the key and the
position. -/
theorem rc4_involution (key x : GoString) (hk : key ≠ []) :
    ∃ y, rc4 key x = .ok y ∧ rc4 key y = .ok x ∧ y.length = x.length ∧
      ∀ i, i < x.length → y[i]? =
        some (byte (((x.getD i 0).val ^^^ keystream key i : Nat) : Int)) := by
  obtain ⟨y, hy, hlen, hback⟩ := rc4_rc4 key x hk
  obtain ⟨y', hy', -, hval⟩ := rc4_eq_xor key x hk
  rw [hy] at hy'
  simp only [Except.ok.injEq] at hy'
  subst hy'
  exact ⟨y, hy, hback, hlen, hval⟩

theorem rc4_involution_witness :
    ([75, 101, 121] : GoString) ≠ [] ∧
    ∃ y, rc4 [75, 101, 121] [1, 2, 3] = .ok y ∧ rc4 [75, 101, 121] y = .ok [1, 2, 3] ∧
      y.length = ([1, 2, 3] : GoString).length ∧
      ∀ i, i < ([1, 2, 3] : GoString).length → y[i]? =
        some (byte (((([1, 2, 3] : GoString).getD i 0).val ^^^
          keystream [75, 101, 121] i : Nat) : Int)) :=
  ⟨by decide, rc4_involution [75, 101, 121] [1, 2, 3] (by decide)⟩

set_option maxRecDepth 100000 in
theorem rotl4_table : ∀ c : Fin 256,
    rotl4 (c.val : Int) = (((c.val % 16) * 16 + c.val / 16 : Nat) : Int) ∧
      rotl4 (rotl4 (c.val : Int)) = (c.val : Int) := by
  decide!

/-- C20. Nibble rotate: for every `c` in `0..255` the schedule entry
`((c << 4) | (c >> 4)) & 0xFF` returns the byte with the two 4-bit halves of
`c` swapped, `(c mod 16) * 16 + c div 16`, and applying it twice returns `c`;
it is the entry at positions 0, 2 and 9 of `makeScheduleY`. -/
theorem rotl4_swaps_nibbles (c : Nat) (hc : c < 256) :
    rotl4 (c : Int) = (((c % 16) * 16 + c / 16 : Nat) : Int) ∧
      rotl4 (rotl4 (c : Int)) = (c : Int) ∧
      makeScheduleY[0]? = some rotl4 ∧ makeScheduleY[2]? = some rotl4 ∧
      makeScheduleY[9]? = some rotl4 :=
  ⟨(rotl4_table ⟨c, hc⟩).1, (rotl4_table ⟨c, hc⟩).2, rfl, rfl, rfl⟩

theorem rotl4_swaps_nibbles_witness :
    (0xA7 : Nat) < 256 ∧
    rotl4 ((0xA7 : Nat) : Int) = (((0xA7 % 16) * 16 + 0xA7 / 16 : Nat) : Int) ∧
      rotl4 (rotl4 ((0xA7 : Nat) : Int)) = ((0xA7 : Nat) : Int) ∧
      makeScheduleY[0]? = some rotl4 ∧ makeScheduleY[2]? = some rotl4 ∧
      makeScheduleY[9]? = some rotl4 :=
  ⟨by decide, rotl4_swaps_nibbles 0xA7 (by decide)⟩

/-! ## The schedule entries are injective on bytes -/

theorem byte_eq_iff (x y : Int) : byte x = byte y ↔ x % 256 = y % 256 := by
  constructor
  · intro h
    have := congrArg Fin.val h
    simp only [byte] at this
    omega
  · intro h
    apply Fin.ext
    simp only [byte, h]

theorem inj_add (k : Int) : ByteInjective (fun c => Int.land (c + k) 0xFF) := by
  intro a b ha hb h
  simp only [land_255, byte_eq_iff] at h
  omega

theorem inj_sub (k : Int) : ByteInjective (fun c => Int.land (c - k + 256) 0xFF) := by
  intro a b ha hb h
  simp only [land_255, byte_eq_iff] at h
  omega

theorem inj_xor (k : Nat) (hk : k < 256) :
    ByteInjective (fun c => Int.land (Int.xor c (k : Int)) 0xFF) := by
  intro a b ha hb h
  simp only [land_255, byte_eq_iff, xor_natCast] at h
  have ha' : a ^^^ k < 256 := Nat.xor_lt_two_pow (n := 8) ha hk
  have hb' : b ^^^ k < 256 := Nat.xor_lt_two_pow (n := 8) hb hk
  have e : a ^^^ k = b ^^^ k := by omega
  exact Nat.xor_left_injective e

theorem inj_rotl4 : ByteInjective rotl4 := by
  intro a b ha hb h
  have ta := rotl4_table ⟨a, ha⟩
  have tb := rotl4_table ⟨b, hb⟩
  simp only at ta tb
  rw [byte_eq_iff, ta.1, tb.1] at h
  have e : rotl4 (a : Int) = rotl4 (b : Int) := by
    rw [ta.1, tb.1]
    omega
  have := ta.2
  rw [e, tb.2] at this
  exact_mod_cast this.symm

theorem scheduleC_injective : ScheduleInjective makeScheduleC := by
  intro k hk
  interval_cases k
  · exact inj_sub 48
  · exact inj_sub 19
  · exact inj_xor 241 (by decide)
  · exact inj_sub 19
  · exact inj_add 223
  · exact inj_sub 19
  · exact inj_sub 170
  · exact inj_sub 19
  · exact inj_sub 48
  · exact inj_xor 8 (by decide)

theorem scheduleY_injective : ScheduleInjective makeScheduleY := by
  intro k hk
  interval_cases k
  · exact inj_rotl4
  · exact inj_add 223
  · exact inj_rotl4
  · exact inj_xor 163 (by decide)
  · exact inj_sub 48
  · exact inj_add 82
  · exact inj_add 223
  · exact inj_sub 48
  · exact inj_xor 83 (by decide)
  · exact inj_rotl4

theorem scheduleB_injective : ScheduleInjective makeScheduleB := by
  intro k hk
  interval_cases k
  · exact inj_sub 19
  · exact inj_add 82
  · exact inj_sub 48
  · exact inj_sub 170
  · exact inj_rotl4
  · exact inj_sub 48
  · exact inj_sub 170
  · exact inj_xor 8 (by decide)
  · exact inj_add 82
  · exact inj_xor 163 (by decide)

theorem scheduleJ_injective : ScheduleInjective makeScheduleJ := by
  intro k hk
  interval_cases k
  · exact inj_add 223
  · exact inj_rotl4
  · exact inj_add 223
  · exact inj_xor 83 (by decide)
  · exact inj_sub 19
  · exact inj_add 223
  · exact inj_sub 170
  · exact inj_add 223
  · exact inj_sub 170
  · exact inj_xor 83 (by decide)

theorem scheduleE_injective : ScheduleInjective makeScheduleE := by
  intro k hk
  interval_cases k
  · exact inj_add 82
  · exact inj_xor 83 (by decide)
  · exact inj_xor 163 (by decide)
  · exact inj_add 82
  · exact inj_sub 170
  · exact inj_xor 8 (by decide)
  · exact inj_xor 241 (by decide)
  · exact inj_add 82
  · exact inj_add 176
  · exact inj_rotl4

/-! ## transform is injective -/

theorem specT_inj (x x' seed : GoString) (schedule : List (Int → Int)) (i : Nat)
    (hf : ByteInjective (schedule.getD (i % 10) id))
    (h : specT x seed schedule i = specT x' seed schedule i) : x.getD i 0 = x'.getD i 0 := by
  have ha : (x.getD i 0).val < 256 := (x.getD i 0).isLt
  have hb : (x'.getD i 0).val < 256 := (x'.getD i 0).isLt
  have hs : (seed.getD (i % 32) 0).val < 256 := (seed.getD (i % 32) 0).isLt
  have ha' := Nat.xor_lt_two_pow (n := 8) ha hs
  have hb' := Nat.xor_lt_two_pow (n := 8) hb hs
  have e := hf _ _ (Nat.mod_lt _ (by decide)) (Nat.mod_lt _ (by decide)) h
  rw [Nat.mod_eq_of_lt ha', Nat.mod_eq_of_lt hb'] at e
  exact Fin.ext (Nat.xor_left_injective e)

theorem layout_specT (input seed pre : GoString) (p : Nat) (schedule : List (Int → Int))
    (n i : Nat) (hi : i < n) :
    ∃ j, (layout input seed pre p schedule n)[j]? = some (specT input seed schedule i) ∧
      j = if i < min p n then 2 * i + 1 else i + min p n := by
  by_cases h : i < min p n
  · exact ⟨2 * i + 1, (layout_head input seed pre p schedule n i h).2, by simp [h]⟩
  · exact ⟨i + min p n, layout_rest input seed pre p schedule n i (by omega) hi, by simp [h]⟩

/-- With a 32-byte seed, a prefix of `prefixLen` bytes and a 10-entry schedule
whose entries are injective on bytes, `transform` is injective in its input. -/
theorem transform_inj (x x' seed pre : GoString) (prefixLen : Int)
    (schedule : List (Int → Int)) (out : GoString) (hseed : seed.length = 32)
    (hpre : (pre.length : Int) = prefixLen) (hsched : schedule.length = 10)
    (hinj : ScheduleInjective schedule)
    (h : transform x seed pre prefixLen schedule = .ok out)
    (h' : transform x' seed pre prefixLen schedule = .ok out) : x = x' := by
  subst hpre
  rw [transform_eq_layout x seed pre pre.length schedule hseed hsched (by omega)] at h
  rw [transform_eq_layout x' seed pre pre.length schedule hseed hsched (by omega)] at h'
  simp only [Except.ok.injEq] at h h'
  have hl := layout_length x seed pre pre.length schedule x.length
  have hl' := layout_length x' seed pre pre.length schedule x'.length
  rw [h] at hl
  rw [h'] at hl'
  have hn : x.length = x'.length := by omega
  apply List.ext_getElem?
  intro i
  by_cases hi : i < x.length
  · obtain ⟨j, hj, hjdef⟩ := layout_specT x seed pre pre.length schedule x.length i hi
    obtain ⟨j', hj', hjdef'⟩ := layout_specT x' seed pre pre.length schedule x'.length i
      (by omega)
    rw [← hn] at hjdef'
    rw [← hjdef] at hjdef'
    subst hjdef'
    rw [h] at hj
    rw [h', hj] at hj'
    simp only [Option.some.injEq] at hj'
    have e := specT_inj x x' seed schedule i (hinj _ (Nat.mod_lt _ (by decide))) hj'
    rw [List.getD_eq_getElem?_getD, List.getD_eq_getElem?_getD,
      List.getElem?_eq_getElem hi, List.getElem?_eq_getElem (by omega : i < x'.length)] at e
    rw [List.getElem?_eq_getElem hi, List.getElem?_eq_getElem (by omega : i < x'.length)]
    exact congrArg some e
  · rw [List.getElem?_eq_none (by omega), List.getElem?_eq_none (by omega)]

theorem transform_ok (input seed pre : GoString) (prefixLen : Int)
    (schedule : List (Int → Int)) (hseed : seed.length = 32)
    (hpre : (pre.length : Int) = prefixLen) (hsched : schedule.length = 10) :
    ∃ out, transform input seed pre prefixLen schedule = .ok out ∧
      out.length = input.length + min pre.length input.length := by
  subst hpre
  exact ⟨_, transform_eq_layout input seed pre pre.length schedule hseed hsched (by omega),
    layout_length _ _ _ _ _ _⟩

set_option maxRecDepth 100000 in
/-- The embedded constants decode to non-empty cipher keys, 32-byte seeds and
prefixes of 7, 10, 9, 7 and 5 bytes. -/
theorem keyMaterial_shape :
    ((atob (rc4Keys "l")).1 ≠ [] ∧ (atob (rc4Keys "g")).1 ≠ [] ∧ (atob (rc4Keys "B")).1 ≠ [] ∧
      (atob (rc4Keys "m")).1 ≠ [] ∧ (atob (rc4Keys "F")).1 ≠ []) ∧
    ((atob (seeds32 "A")).1.length = 32 ∧ (atob (seeds32 "V")).1.length = 32 ∧
      (atob (seeds32 "N")).1.length = 32 ∧ (atob (seeds32 "P")).1.length = 32 ∧
      (atob (seeds32 "k")).1.length = 32) ∧
    (((atob (prefixKeys "O")).1.length : Int) = 7 ∧
      ((atob (prefixKeys "v")).1.length : Int) = 10 ∧
      ((atob (prefixKeys "L")).1.length : Int) = 9 ∧
      ((atob (prefixKeys "p")).1.length : Int) = 7 ∧
      ((atob (prefixKeys "W")).1.length : Int) = 5) := by
  decide!

theorem schedules_length :
    makeScheduleC.length = 10 ∧ makeScheduleY.length = 10 ∧ makeScheduleB.length = 10 ∧
      makeScheduleJ.length = 10 ∧ makeScheduleE.length = 10 :=
  ⟨rfl, rfl, rfl, rfl, rfl⟩

/-- The ten steps of the pipeline, for any key material of the right shape:
every step returns, and the lengths grow by the prefix bytes. -/
theorem pipeline_steps (K1 K2 K3 K4 K5 S1 S2 S3 S4 S5 P1 P2 P3 P4 P5 : GoString)
    (hK : K1 ≠ [] ∧ K2 ≠ [] ∧ K3 ≠ [] ∧ K4 ≠ [] ∧ K5 ≠ [])
    (hS : S1.length = 32 ∧ S2.length = 32 ∧ S3.length = 32 ∧ S4.length = 32 ∧ S5.length = 32)
    (hP : (P1.length : Int) = 7 ∧ (P2.length : Int) = 10 ∧ (P3.length : Int) = 9 ∧
      (P4.length : Int) = 7 ∧ (P5.length : Int) = 5)
    (input : GoString) :
    ∃ b1 b2 b3 b4 b5 b6 b7 b8 b9 b10,
      (rc4 K1 input = .ok b1 ∧ transform b1 S1 P1 7 makeScheduleC = .ok b2 ∧
        rc4 K2 b2 = .ok b3 ∧ transform b3 S2 P2 10 makeScheduleY = .ok b4 ∧
        rc4 K3 b4 = .ok b5 ∧ transform b5 S3 P3 9 makeScheduleB = .ok b6 ∧
        rc4 K4 b6 = .ok b7 ∧ transform b7 S4 P4 7 makeScheduleJ = .ok b8 ∧
        rc4 K5 b8 = .ok b9 ∧ transform b9 S5 P5 5 makeScheduleE = .ok b10) ∧
      (b1.length = input.length ∧ b2.length = b1.length + min 7 b1.length ∧
        b3.length = b2.length ∧ b4.length = b3.length + min 10 b3.length ∧
        b5.length = b4.length ∧ b6.length = b5.length + min 9 b5.length ∧
        b7.length = b6.length ∧ b8.length = b7.length + min 7 b7.length ∧
        b9.length = b8.length ∧ b10.length = b9.length + min 5 b9.length) ∧
      (do
        let bytes ← rc4 K1 input
        let bytes ← transform bytes S1 P1 7 makeScheduleC
        let bytes ← rc4 K2 bytes
        let bytes ← transform bytes S2 P2 10 makeScheduleY
        let bytes ← rc4 K3 bytes
        let bytes ← transform bytes S3 P3 9 makeScheduleB
        let bytes ← rc4 K4 bytes
        let bytes ← transform bytes S4 P4 7 makeScheduleJ
        let bytes ← rc4 K5 bytes
        let bytes ← transform bytes S5 P5 5 makeScheduleE
        pure (btoa bytes, (none : Option GoError)) :
          Except GoPanic (GoString × Option GoError)) = .ok (btoa b10, none) := by
  obtain ⟨k1, k2, k3, k4, k5⟩ := hK
  obtain ⟨s1, s2, s3, s4, s5⟩ := hS
  obtain ⟨p1, p2, p3, p4, p5⟩ := hP
  obtain ⟨c1, c2, c3, c4, c5⟩ := schedules_length
  have q1 : P1.length = 7 := by exact_mod_cast p1
  have q2 : P2.length = 10 := by exact_mod_cast p2
  have q3 : P3.length = 9 := by exact_mod_cast p3
  have q4 : P4.length = 7 := by exact_mod_cast p4
  have q5 : P5.length = 5 := by exact_mod_cast p5
  obtain ⟨b1, h1, l1⟩ := rc4_ok K1 input k1
  obtain ⟨b2, h2, l2⟩ := transform_ok b1 S1 P1 7 makeScheduleC s1 p1 c1
  obtain ⟨b3, h3, l3⟩ := rc4_ok K2 b2 k2
  obtain ⟨b4, h4, l4⟩ := transform_ok b3 S2 P2 10 makeScheduleY s2 p2 c2
  obtain ⟨b5, h5, l5⟩ := rc4_ok K3 b4 k3
  obtain ⟨b6, h6, l6⟩ := transform_ok b5 S3 P3 9 makeScheduleB s3 p3 c3
  obtain ⟨b7, h7, l7⟩ := rc4_ok K4 b6 k4
  obtain ⟨b8, h8, l8⟩ := transform_ok b7 S4 P4 7 makeScheduleJ s4 p4 c4
  obtain ⟨b9, h9, l9⟩ := rc4_ok K5 b8 k5
  obtain ⟨b10, h10, l10⟩ := transform_ok b9 S5 P5 5 makeScheduleE s5 p5 c5
  rw [q1] at l2
  rw [q2] at l4
  rw [q3] at l6
  rw [q4] at l8
  rw [q5] at l10
  refine ⟨b1, b2, b3, b4, b5, b6, b7, b8, b9, b10,
    ⟨h1, h2, h3, h4, h5, h6, h7, h8, h9, h10⟩,
    ⟨l1, l2, l3, l4, l5, l6, l7, l8, l9, l10⟩, ?_⟩
  simp only [h1, h2, h3, h4, h5, h6, h7, h8, h9, h10, bind, Except.bind,
    pure, Except.pure]

/-- The steps of `generateNoCache` on the embedded key material. -/
theorem generateNoCache_steps (input : GoString) :
    ∃ b1 b2 b3 b4 b5 b6 b7 b8 b9 b10,
      (rc4 (atob (rc4Keys "l")).1 input = .ok b1 ∧
        transform b1 (atob (seeds32 "A")).1 (atob (prefixKeys "O")).1 7 makeScheduleC =
          .ok b2 ∧
        rc4 (atob (rc4Keys "g")).1 b2 = .ok b3 ∧
        transform b3 (atob (seeds32 "V")).1 (atob (prefixKeys "v")).1 10 makeScheduleY =
          .ok b4 ∧
        rc4 (atob (rc4Keys "B")).1 b4 = .ok b5 ∧
        transform b5 (atob (seeds32 "N")).1 (atob (prefixKeys "L")).1 9 makeScheduleB =
          .ok b6 ∧
        rc4 (atob (rc4Keys "m")).1 b6 = .ok b7 ∧
        transform b7 (atob (seeds32 "P")).1 (atob (prefixKeys "p")).1 7 makeScheduleJ =
          .ok b8 ∧
        rc4 (atob (rc4Keys "F")).1 b8 = .ok b9 ∧
        transform b9 (atob (seeds32 "k")).1 (atob (prefixKeys "W")).1 5 makeScheduleE =
          .ok b10) ∧
      (b1.length = input.length ∧ b2.length = b1.length + min 7 b1.length ∧
        b3.length = b2.length ∧ b4.length = b3.length + min 10 b3.length ∧
        b5.length = b4.length ∧ b6.length = b5.length + min 9 b5.length ∧
        b7.length = b6.length ∧ b8.length = b7.length + min 7 b7.length ∧
        b9.length = b8.length ∧ b10.length = b9.length + min 5 b9.length) ∧
      generateNoCache input = .ok (btoa b10, none) :=
  pipeline_steps _ _ _ _ _ _ _ _ _ _ _ _ _ _ _ keyMaterial_shape.1 keyMaterial_shape.2.1
    keyMaterial_shape.2.2 input

/-- The pipeline never panics and never returns an error. -/
theorem generateNoCache_ok (input : GoString) :
    ∃ tok, generateNoCache input = .ok (tok, none) := by
  obtain ⟨_, _, _, _, _, _, _, _, _, b10, -, -, h⟩ := generateNoCache_steps input
  exact ⟨btoa b10, h⟩

/-- C3. The pipeline is total: for every input string, the empty one and those
shorter than a prefix length included, each of the ten steps of
`generateNoCache` returns without a panic, and `generateNoCache` returns a
token together with a nil error. -/
theorem generateNoCache_total (input : GoString) :
    ∃ b1 b2 b3 b4 b5 b6 b7 b8 b9 b10,
      (rc4 (atob (rc4Keys "l")).1 input = .ok b1 ∧
        transform b1 (atob (seeds32 "A")).1 (atob (prefixKeys "O")).1 7 makeScheduleC =
          .ok b2 ∧
        rc4 (atob (rc4Keys "g")).1 b2 = .ok b3 ∧
        transform b3 (atob (seeds32 "V")).1 (atob (prefixKeys "v")).1 10 makeScheduleY =
          .ok b4 ∧
        rc4 (atob (rc4Keys "B")).1 b4 = .ok b5 ∧
        transform b5 (atob (seeds32 "N")).1 (atob (prefixKeys "L")).1 9 makeScheduleB =
          .ok b6 ∧
        rc4 (atob (rc4Keys "m")).1 b6 = .ok b7 ∧
        transform b7 (atob (seeds32 "P")).1 (atob (prefixKeys "p")).1 7 makeScheduleJ =
          .ok b8 ∧
        rc4 (atob (rc4Keys "F")).1 b8 = .ok b9 ∧
        transform b9 (atob (seeds32 "k")).1 (atob (prefixKeys "W")).1 5 makeScheduleE =
          .ok b10) ∧
      generateNoCache input = .ok (btoa b10, none) := by
  obtain ⟨b1, b2, b3, b4, b5, b6, b7, b8, b9, b10, hs, -, h⟩ := generateNoCache_steps input
  exact ⟨b1, b2, b3, b4, b5, b6, b7, b8, b9, b10, hs, h⟩

set_option maxRecDepth 100000 in
/-- The fifteen embedded constants decode without an error. -/
theorem keyMaterial_decodes :
    ((atob (rc4Keys "l")).2 = none ∧ (atob (rc4Keys "g")).2 = none ∧
      (atob (rc4Keys "B")).2 = none ∧ (atob (rc4Keys "m")).2 = none ∧
      (atob (rc4Keys "F")).2 = none) ∧
    ((atob (seeds32 "A")).2 = none ∧ (atob (seeds32 "V")).2 = none ∧
      (atob (seeds32 "N")).2 = none ∧ (atob (seeds32 "P")).2 = none ∧
      (atob (seeds32 "k")).2 = none) ∧
    ((atob (prefixKeys "O")).2 = none ∧ (atob (prefixKeys "v")).2 = none ∧
      (atob (prefixKeys "L")).2 = none ∧ (atob (prefixKeys "p")).2 = none ∧
      (atob (prefixKeys "W")).2 = none) := by
  decide!

/-- C14. The key material is well formed: each of the fifteen embedded
constants decodes without an error, each cipher key is non-empty, each seed has
32 bytes, and the prefixes `O`, `v`, `L`, `p`, `W` have 7, 10, 9, 7 and 5
bytes, the prefix lengths that `generateNoCache` passes with them to
`transform`: on every input the token is the encoding of the outcome of the
ten chained steps, each `transform` step taking the outcome of the cipher step
before it, its seed, its prefix and that prefix length. -/
theorem keyMaterial_wellFormed :
    (((atob (rc4Keys "l")).2 = none ∧ (atob (rc4Keys "g")).2 = none ∧
      (atob (rc4Keys "B")).2 = none ∧ (atob (rc4Keys "m")).2 = none ∧
      (atob (rc4Keys "F")).2 = none) ∧
    ((atob (seeds32 "A")).2 = none ∧ (atob (seeds32 "V")).2 = none ∧
      (atob (seeds32 "N")).2 = none ∧ (atob (seeds32 "P")).2 = none ∧
      (atob (seeds32 "k")).2 = none) ∧
    ((atob (prefixKeys "O")).2 = none ∧ (atob (prefixKeys "v")).2 = none ∧
      (atob (prefixKeys "L")).2 = none ∧ (atob (prefixKeys "p")).2 = none ∧
      (atob (prefixKeys "W")).2 = none)) ∧
    (((atob (rc4Keys "l")).1 ≠ [] ∧ (atob (rc4Keys "g")).1 ≠ [] ∧ (atob (rc4Keys "B")).1 ≠ [] ∧
      (atob (rc4Keys "m")).1 ≠ [] ∧ (atob (rc4Keys "F")).1 ≠ []) ∧
    ((atob (seeds32 "A")).1.length = 32 ∧ (atob (seeds32 "V")).1.length = 32 ∧
      (atob (seeds32 "N")).1.length = 32 ∧ (atob (seeds32 "P")).1.length = 32 ∧
      (atob (seeds32 "k")).1.length = 32) ∧
    (((atob (prefixKeys "O")).1.length : Int) = 7 ∧
      ((atob (prefixKeys "v")).1.length : Int) = 10 ∧
      ((atob (prefixKeys "L")).1.length : Int) = 9 ∧
      ((atob (prefixKeys "p")).1.length : Int) = 7 ∧
      ((atob (prefixKeys "W")).1.length : Int) = 5)) ∧
    ∀ input : GoString, ∃ b1 b2 b3 b4 b5 b6 b7 b8 b9 b10,
      (rc4 (atob (rc4Keys "l")).1 input = .ok b1 ∧
        transform b1 (atob (seeds32 "A")).1 (atob (prefixKeys "O")).1 7 makeScheduleC =
          .ok b2 ∧
        rc4 (atob (rc4Keys "g")).1 b2 = .ok b3 ∧
        transform b3 (atob (seeds32 "V")).1 (atob (prefixKeys "v")).1 10 makeScheduleY =
          .ok b4 ∧
        rc4 (atob (rc4Keys "B")).1 b4 = .ok b5 ∧
        transform b5 (atob (seeds32 "N")).1 (atob (prefixKeys "L")).1 9 makeScheduleB =
          .ok b6 ∧
        rc4 (atob (rc4Keys "m")).1 b6 = .ok b7 ∧
        transform b7 (atob (seeds32 "P")).1 (atob (prefixKeys "p")).1 7 makeScheduleJ =
          .ok b8 ∧
        rc4 (atob (rc4Keys "F")).1 b8 = .ok b9 ∧
        transform b9 (atob (seeds32 "k")).1 (atob (prefixKeys "W")).1 5 makeScheduleE =
          .ok b10) ∧
      generateNoCache input = .ok (btoa b10, none) := by
  refine ⟨keyMaterial_decodes, keyMaterial_shape, fun input => ?_⟩
  obtain ⟨b1, b2, b3, b4, b5, b6, b7, b8, b9, b10, hs, -, h⟩ := generateNoCache_steps input
  exact ⟨b1, b2, b3, b4, b5, b6, b7, b8, b9, b10, hs, h⟩

/-! ## Every schedule entry is a bijection on bytes -/

theorem land_range (x : Int) : 0 ≤ Int.land x 0xFF ∧ Int.land x 0xFF < 256 := by
  rw [land_255]
  omega

theorem scheduleC_range (k : Nat) (hk : k < 10) (c : Int) :
    0 ≤ makeScheduleC.getD k id c ∧ makeScheduleC.getD k id c < 256 := by
  interval_cases k <;> exact land_range _

theorem scheduleY_range (k : Nat) (hk : k < 10) (c : Int) :
    0 ≤ makeScheduleY.getD k id c ∧ makeScheduleY.getD k id c < 256 := by
  interval_cases k <;> exact land_range _

theorem scheduleB_range (k : Nat) (hk : k < 10) (c : Int) :
    0 ≤ makeScheduleB.getD k id c ∧ makeScheduleB.getD k id c < 256 := by
  interval_cases k <;> exact land_range _

theorem scheduleJ_range (k : Nat) (hk : k < 10) (c : Int) :
    0 ≤ makeScheduleJ.getD k id c ∧ makeScheduleJ.getD k id c < 256 := by
  interval_cases k <;> exact land_range _

theorem scheduleE_range (k : Nat) (hk : k < 10) (c : Int) :
    0 ≤ makeScheduleE.getD k id c ∧ makeScheduleE.getD k id c < 256 := by
  interval_cases k <;> exact land_range _

theorem fixed_cases (S : List (Int → Int)) (hS : S ∈ fixedSchedules) :
    S = makeScheduleC ∨ S = makeScheduleY ∨ S = makeScheduleB ∨ S = makeScheduleJ ∨
      S = makeScheduleE := by
  simpa [fixedSchedules] using hS

theorem fixed_length (S : List (Int → Int)) (hS : S ∈ fixedSchedules) : S.length = 10 := by
  rcases fixed_cases S hS with h | h | h | h | h <;> subst h <;> rfl

theorem fixed_injective (S : List (Int → Int)) (hS : S ∈ fixedSchedules) :
    ScheduleInjective S := by
  rcases fixed_cases S hS with h | h | h | h | h <;> subst h
  · exact scheduleC_injective
  · exact scheduleY_injective
  · exact scheduleB_injective
  · exact scheduleJ_injective
  · exact scheduleE_injective

theorem fixed_range (S : List (Int → Int)) (hS : S ∈ fixedSchedules) (k : Nat) (hk : k < 10)
    (c : Int) : 0 ≤ S.getD k id c ∧ S.getD k id c < 256 := by
  rcases fixed_cases S hS with h | h | h | h | h <;> subst h
  · exact scheduleC_range k hk c
  · exact scheduleY_range k hk c
  · exact scheduleB_range k hk c
  · exact scheduleJ_range k hk c
  · exact scheduleE_range k hk c

theorem entryOnBytes_bijective (f : Int → Int) (hf : ByteInjective f) :
    Function.Bijective (entryOnBytes f) := by
  have hinj : Function.Injective (entryOnBytes f) := by
    intro a b h
    simp only [entryOnBytes] at h
    rw [← byte_emod (f a.val), ← byte_emod (f b.val)] at h
    exact Fin.ext (hf a.val b.val a.isLt b.isLt h)
  exact ⟨hinj, Finite.injective_iff_surjective.1 hinj⟩

/-- C22. For each of the five fixed schedules every entry maps `0..255` into
`0..255` and is a bijection there, and therefore, for every 32-byte seed and
every prefix with `prefixLen = len(prefix)`, `transform` is injective in its
input. -/
theorem transform_injective (S : List (Int → Int)) (hS : S ∈ fixedSchedules)
    (seed pre : GoString) (prefixLen : Int) (hseed : seed.length = 32)
    (hpre : (pre.length : Int) = prefixLen) :
    (∀ k, k < 10 → ∃ f, S[k]? = some f ∧ (∀ c : Int, 0 ≤ f c ∧ f c < 256) ∧
      Function.Bijective (entryOnBytes f)) ∧
    ∀ x y : GoString, transform x seed pre prefixLen S = transform y seed pre prefixLen S →
      x = y := by
  have hlen := fixed_length S hS
  have hinj := fixed_injective S hS
  constructor
  · intro k hk
    have hget : S[k]? = some (S.getD k id) := by
      rw [List.getD_eq_getElem?_getD, List.getElem?_eq_getElem (by omega)]
      rfl
    exact ⟨S.getD k id, hget, fun c => fixed_range S hS k hk c,
      entryOnBytes_bijective _ (hinj k hk)⟩
  · intro x y h
    obtain ⟨out, hx, -⟩ := transform_ok x seed pre prefixLen S hseed hpre hlen
    rw [hx] at h
    exact transform_inj x y seed pre prefixLen S out hseed hpre hlen hinj hx h.symm

theorem transform_injective_witness :
    makeScheduleY ∈ fixedSchedules ∧ (List.replicate 32 (7 : Byte)).length = 32 ∧
    (([70, 140, 30] : GoString).length : Int) = 3 ∧
    (∀ k, k < 10 → ∃ f, makeScheduleY[k]? = some f ∧ (∀ c : Int, 0 ≤ f c ∧ f c < 256) ∧
      Function.Bijective (entryOnBytes f)) ∧
    ∀ x y : GoString,
      transform x (List.replicate 32 7) [70, 140, 30] 3 makeScheduleY =
        transform y (List.replicate 32 7) [70, 140, 30] 3 makeScheduleY → x = y :=
  ⟨by simp [fixedSchedules], by decide, by decide,
    transform_injective makeScheduleY (by simp [fixedSchedules]) (List.replicate 32 7)
      [70, 140, 30] 3 (by decide) (by decide)⟩

/-! ## btoa -/

theorem three_step {α : Type} {P : List α → Prop} (h0 : P []) (h1 : ∀ a, P [a])
    (h2 : ∀ a b, P [a, b]) (h3 : ∀ a b c rest, P rest → P (a :: b :: c :: rest)) :
    ∀ l, P l
  | [] => h0
  | [a] => h1 a
  | [a, b] => h2 a b
  | a :: b :: c :: rest => h3 a b c rest (three_step h0 h1 h2 h3 rest)

theorem replaceScan_single (o n : Byte) (s : GoString) :
    replaceScan [o] [n] 0 s = s.map (fun c => if c = o then n else c) := by
  induction s with
  | nil => rfl
  | cons c cs ih =>
    by_cases h : c = o
    · subst h
      simp [replaceScan, List.isPrefixOf, ih]
    · have h' : ¬ o = c := fun e => h e.symm
      simp [replaceScan, List.isPrefixOf, ih, h, h']

theorem ReplaceAll_single (o n : Byte) (s : GoString) :
    ReplaceAll s [o] [n] = s.map (fun c => if c = o then n else c) := by
  simp [ReplaceAll, replaceScan_single]

theorem str_plus : str "+" = [43] := by decide
theorem str_minus : str "-" = [45] := by decide
theorem str_slash : str "/" = [47] := by decide
theorem str_underscore : str "_" = [95] := by decide
theorem str_pad : str "=" = [61] := by decide

theorem subst_subst : ∀ c : Byte,
    (if (if c = 43 then (45 : Byte) else c) = 47 then (95 : Byte)
      else (if c = 43 then (45 : Byte) else c)) = urlSubst c := by
  intro c
  unfold urlSubst
  by_cases h : c = 43
  · subst h; decide
  · simp only [h, if_false]

theorem btoa_eq_specBtoa (b : GoString) : btoa b = specBtoa b := by
  simp only [btoa, specBtoa, str_plus, str_minus, str_slash, str_underscore, str_pad,
    ReplaceAll_single, TrimRight, List.map_map]
  have hf : ((fun c : Byte => if c = 47 then (95 : Byte) else c) ∘
      (fun c : Byte => if c = 43 then (45 : Byte) else c)) = urlSubst := by
    funext c
    exact subst_subst c
  rw [hf]
  congr 1
  funext c
  simp [padChar]

theorem rdropWhile_cons_of_neg {α : Type} (p : α → Bool) (x : α) (l : List α)
    (h : p x = false) : (x :: l).rdropWhile p = x :: l.rdropWhile p := by
  induction l using List.reverseRecOn with
  | nil => simp [List.rdropWhile, h]
  | append_singleton l y ih =>
    rw [← List.cons_append]
    by_cases hy : p y = true
    · rw [List.rdropWhile_concat_pos _ _ _ hy, List.rdropWhile_concat_pos _ _ _ hy, ih]
    · rw [List.rdropWhile_concat_neg _ _ _ hy, List.rdropWhile_concat_neg _ _ _ hy]
      rfl

theorem urlSubst_encChar_ne_pad (n : Nat) :
    (fun c : Byte => decide (c = padChar)) (urlSubst (encChar n)) = false := by
  have h : ∀ k : Fin 64, decide (urlSubst (encodeStd.getD k.val 0) = padChar) = false := by
    decide
  exact h ⟨n % 64, Nat.mod_lt _ (by decide)⟩

theorem trim_cons (n : Nat) (l : GoString) :
    (urlSubst (encChar n) :: l).rdropWhile (fun c => decide (c = padChar)) =
      urlSubst (encChar n) :: l.rdropWhile (fun c => decide (c = padChar)) :=
  rdropWhile_cons_of_neg (fun c => decide (c = padChar)) _ l (urlSubst_encChar_ne_pad n)

theorem urlSubst_encChar_safe (n : Nat) : isUrlSafe (urlSubst (encChar n)) = true := by
  have h : ∀ k : Fin 64, isUrlSafe (urlSubst (encodeStd.getD k.val 0)) = true := by decide
  exact h ⟨n % 64, Nat.mod_lt _ (by decide)⟩

theorem urlSubst_pad : urlSubst padChar = padChar := by decide

theorem specBtoa_eq_rawUrl (b : GoString) : specBtoa b = rawUrl b := by
  induction b using three_step with
  | h0 => simp [specBtoa, EncodeToString, rawUrl]
  | h1 a =>
    simp only [specBtoa, EncodeToString, rawUrl, List.map_cons, List.map_nil, urlSubst_pad]
    simp only [trim_cons]
    simp [List.rdropWhile]
  | h2 a b =>
    simp only [specBtoa, EncodeToString, rawUrl, List.map_cons, List.map_nil, urlSubst_pad]
    simp only [trim_cons]
    simp [List.rdropWhile]
  | h3 a b c rest ih =>
    simp only [specBtoa, EncodeToString, rawUrl, List.map_cons] at ih ⊢
    simp only [trim_cons, ih]

theorem rawUrl_safe (b : GoString) : ∀ c ∈ rawUrl b, isUrlSafe c = true := by
  induction b using three_step with
  | h0 => simp [rawUrl]
  | h1 a => simp [rawUrl, urlSubst_encChar_safe]
  | h2 a b => simp [rawUrl, urlSubst_encChar_safe]
  | h3 a b c rest ih =>
    intro x hx
    simp only [rawUrl, List.mem_cons] at hx
    rcases hx with h | h | h | h | h
    · rw [h]; exact urlSubst_encChar_safe _
    · rw [h]; exact urlSubst_encChar_safe _
    · rw [h]; exact urlSubst_encChar_safe _
    · rw [h]; exact urlSubst_encChar_safe _
    · exact ih x h

theorem rawUrl_length (b : GoString) : (rawUrl b).length = (4 * b.length + 2) / 3 := by
  induction b using three_step with
  | h0 => simp [rawUrl]
  | h1 a => simp [rawUrl]
  | h2 a b => simp [rawUrl]
  | h3 a b c rest ih =>
    simp only [rawUrl, List.length_cons, ih]
    omega

/-- C7. `btoa(b)` is the standard padded base64 encoding of `b` with `+` replaced
by `-`, `/` by `_` and the trailing `=` removed; it contains only characters
from `A-Z`, `a-z`, `0-9`, `-`, `_`, and its length is `ceil(4 * len(b) / 3)`. -/
theorem btoa_spec (b : GoString) :
    btoa b = specBtoa b ∧ (∀ c ∈ btoa b, isUrlSafe c = true) ∧
      (btoa b).length = (4 * b.length + 2) / 3 ∧ 3 * (btoa b).length < 4 * b.length + 3 ∧
      4 * b.length ≤ 3 * (btoa b).length := by
  have h : btoa b = rawUrl b := (btoa_eq_specBtoa b).trans (specBtoa_eq_rawUrl b)
  have hl := rawUrl_length b
  refine ⟨btoa_eq_specBtoa b, ?_, ?_, ?_, ?_⟩
  · rw [h]; exact rawUrl_safe b
  · rw [h]; exact hl
  · rw [h, hl]; omega
  · rw [h, hl]; omega

/-! ## btoa is injective -/

set_option maxRecDepth 100000 in
theorem urlChar_inj : ∀ m n : Fin 64,
    urlSubst (encodeStd.getD m.val 0) = urlSubst (encodeStd.getD n.val 0) → m = n := by
  decide!

theorem urlSubst_encChar_inj (m n : Nat) (hm : m < 64) (hn : n < 64)
    (h : urlSubst (encChar m) = urlSubst (encChar n)) : m = n := by
  have e := urlChar_inj ⟨m, hm⟩ ⟨n, hn⟩
  simp only [encChar, Nat.mod_eq_of_lt hm, Nat.mod_eq_of_lt hn] at h
  exact Fin.mk.inj (e h)

theorem lor_table4 : ∀ x : Fin 4, ∀ y : Fin 16, (x.val <<< 4) ||| y.val = x.val * 16 + y.val := by
  decide

theorem lor_table2 : ∀ x : Fin 16, ∀ y : Fin 4, (x.val <<< 2) ||| y.val = x.val * 4 + y.val := by
  decide

theorem sextet1 (a : Nat) : a >>> 2 = a / 4 := Nat.shiftRight_eq_div_pow a 2

theorem sextet2 (a b : Nat) (hb : b < 256) :
    ((a &&& 0x3) <<< 4) ||| (b >>> 4) = (a % 4) * 16 + b / 16 := by
  have h1 : a &&& 0x3 = a % 4 := Nat.and_pow_two_sub_one_eq_mod a 2
  have h2 : b >>> 4 = b / 16 := Nat.shiftRight_eq_div_pow b 4
  rw [h1, h2]
  exact lor_table4 ⟨a % 4, Nat.mod_lt _ (by decide)⟩ ⟨b / 16, by omega⟩

theorem sextet2' (a : Nat) : (a &&& 0x3) <<< 4 = (a % 4) * 16 := by
  have h1 : a &&& 0x3 = a % 4 := Nat.and_pow_two_sub_one_eq_mod a 2
  rw [h1, Nat.shiftLeft_eq]

theorem sextet3 (b c : Nat) (hc : c < 256) :
    ((b &&& 0xF) <<< 2) ||| (c >>> 6) = (b % 16) * 4 + c / 64 := by
  have h1 : b &&& 0xF = b % 16 := Nat.and_pow_two_sub_one_eq_mod b 4
  have h2 : c >>> 6 = c / 64 := Nat.shiftRight_eq_div_pow c 6
  rw [h1, h2]
  exact lor_table2 ⟨b % 16, Nat.mod_lt _ (by decide)⟩ ⟨c / 64, by omega⟩

theorem sextet3' (b : Nat) : (b &&& 0xF) <<< 2 = (b % 16) * 4 := by
  have h1 : b &&& 0xF = b % 16 := Nat.and_pow_two_sub_one_eq_mod b 4
  rw [h1, Nat.shiftLeft_eq]

theorem sextet4 (c : Nat) : c &&& 0x3F = c % 64 := Nat.and_pow_two_sub_one_eq_mod c 6

theorem rawUrl_inj_of_length : ∀ (b b' : GoString), b.length = b'.length →
    rawUrl b = rawUrl b' → b = b' := by
  intro b
  induction b using three_step with
  | h0 =>
    intro b' hl _
    exact (List.length_eq_zero.1 hl.symm).symm
  | h1 a =>
    intro b' hl h
    match b', hl with
    | [a'], _ =>
      simp only [rawUrl, List.cons.injEq, and_true] at h
      have e1 := urlSubst_encChar_inj _ _ (by rw [sextet1]; omega) (by rw [sextet1]; omega) h.1
      have e2 := urlSubst_encChar_inj _ _ (by rw [sextet2']; omega) (by rw [sextet2']; omega) h.2
      rw [sextet1, sextet1] at e1
      rw [sextet2', sextet2'] at e2
      have : a.val = a'.val := by omega
      rw [Fin.ext this]
  | h2 a c =>
    intro b' hl h
    match b', hl with
    | [a', c'], _ =>
      simp only [rawUrl, List.cons.injEq, and_true] at h
      have e1 := urlSubst_encChar_inj _ _ (by rw [sextet1]; omega) (by rw [sextet1]; omega) h.1
      have e2 := urlSubst_encChar_inj _ _ (by rw [sextet2 _ _ c.isLt]; omega)
        (by rw [sextet2 _ _ c'.isLt]; omega) h.2.1
      have e3 := urlSubst_encChar_inj _ _ (by rw [sextet3']; omega) (by rw [sextet3']; omega)
        h.2.2
      rw [sextet1, sextet1] at e1
      rw [sextet2 _ _ c.isLt, sextet2 _ _ c'.isLt] at e2
      rw [sextet3', sextet3'] at e3
      have ha : a.val = a'.val := by omega
      have hc : c.val = c'.val := by omega
      rw [Fin.ext ha, Fin.ext hc]
  | h3 a c d rest ih =>
    intro b' hl h
    match b', hl with
    | a' :: c' :: d' :: rest', hl' =>
      simp only [rawUrl, List.cons.injEq] at h
      obtain ⟨h1, h2, h3, h4, h5⟩ := h
      have e1 := urlSubst_encChar_inj _ _ (by rw [sextet1]; omega) (by rw [sextet1]; omega) h1
      have e2 := urlSubst_encChar_inj _ _ (by rw [sextet2 _ _ c.isLt]; omega)
        (by rw [sextet2 _ _ c'.isLt]; omega) h2
      have e3 := urlSubst_encChar_inj _ _ (by rw [sextet3 _ _ d.isLt]; omega)
        (by rw [sextet3 _ _ d'.isLt]; omega) h3
      have e4 := urlSubst_encChar_inj _ _ (by rw [sextet4]; omega) (by rw [sextet4]; omega) h4
      rw [sextet1, sextet1] at e1
      rw [sextet2 _ _ c.isLt, sextet2 _ _ c'.isLt] at e2
      rw [sextet3 _ _ d.isLt, sextet3 _ _ d'.isLt] at e3
      rw [sextet4, sextet4] at e4
      have ha : a.val = a'.val := by omega
      have hc : c.val = c'.val := by omega
      have hd : d.val = d'.val := by omega
      have hr : rest = rest' := ih rest' (by simpa using hl') h5
      rw [Fin.ext ha, Fin.ext hc, Fin.ext hd, hr]

/-- The encoder `btoa` is injective. -/
theorem btoa_inj (b b' : GoString) (h : btoa b = btoa b') : b = b' := by
  have e : rawUrl b = rawUrl b' := by
    rw [← specBtoa_eq_rawUrl, ← specBtoa_eq_rawUrl, ← btoa_eq_specBtoa, ← btoa_eq_specBtoa]
    exact h
  have hl := congrArg List.length e
  rw [rawUrl_length, rawUrl_length] at hl
  exact rawUrl_inj_of_length b b' (by omega) e

/-! ## Token size -/

theorem btoa_nil : btoa [] = [] := by
  rw [btoa_eq_specBtoa, specBtoa_eq_rawUrl]
  rfl

theorem btoa_length (b : GoString) : (btoa b).length = (4 * b.length + 2) / 3 := by
  rw [btoa_eq_specBtoa, specBtoa_eq_rawUrl, rawUrl_length]

/-- C21. Token size: for an input of `n ≥ 7` bytes the byte sequence that
`generateNoCache` passes to `btoa` has `n + 38` bytes (the five rounds add 7,
10, 9, 7 and 5 bytes) and the token has `ceil(4 * (n + 38) / 3)` characters;
for the empty input the token is the empty string. -/
theorem token_size (input : GoString) :
    (7 ≤ input.length → ∃ b9 b10,
      transform b9 (atob (seeds32 "k")).1 (atob (prefixKeys "W")).1 5 makeScheduleE =
        .ok b10 ∧
      generateNoCache input = .ok (btoa b10, none) ∧ b10.length = input.length + 38 ∧
      (btoa b10).length = (4 * (input.length + 38) + 2) / 3 ∧
      3 * (btoa b10).length < 4 * (input.length + 38) + 3 ∧
      4 * (input.length + 38) ≤ 3 * (btoa b10).length) ∧
    generateNoCache [] = .ok ([], none) := by
  constructor
  · intro hn
    obtain ⟨b1, b2, b3, b4, b5, b6, b7, b8, b9, b10, hs,
      ⟨l1, l2, l3, l4, l5, l6, l7, l8, l9, l10⟩, hg⟩ := generateNoCache_steps input
    have hl : b10.length = input.length + 38 := by omega
    have hb := btoa_length b10
    rw [hl] at hb
    refine ⟨b9, b10, hs.2.2.2.2.2.2.2.2.2, hg, hl, hb, ?_, ?_⟩
    · rw [hb]; omega
    · rw [hb]; omega
  · obtain ⟨b1, b2, b3, b4, b5, b6, b7, b8, b9, b10, -,
      ⟨l1, l2, l3, l4, l5, l6, l7, l8, l9, l10⟩, hg⟩ := generateNoCache_steps []
    have hl : b10.length = 0 := by
      simp only [List.length_nil] at l1
      omega
    have hb : b10 = [] := List.length_eq_zero.1 hl
    rw [hg, hb, btoa_nil]

theorem token_size_witness :
    7 ≤ ([110, 97, 114, 117, 116, 111, 33] : GoString).length ∧
    ∃ b9 b10,
      transform b9 (atob (seeds32 "k")).1 (atob (prefixKeys "W")).1 5 makeScheduleE =
        .ok b10 ∧
      generateNoCache [110, 97, 114, 117, 116, 111, 33] = .ok (btoa b10, none) ∧
      b10.length = ([110, 97, 114, 117, 116, 111, 33] : GoString).length + 38 ∧
      (btoa b10).length =
        (4 * (([110, 97, 114, 117, 116, 111, 33] : GoString).length + 38) + 2) / 3 ∧
      3 * (btoa b10).length <
        4 * (([110, 97, 114, 117, 116, 111, 33] : GoString).length + 38) + 3 ∧
      4 * (([110, 97, 114, 117, 116, 111, 33] : GoString).length + 38) ≤
        3 * (btoa b10).length :=
  ⟨by decide, (token_size [110, 97, 114, 117, 116, 111, 33]).1 (by decide)⟩

/-! ## The cache -/

theorem getOrCompute_hit {σ : Type} (c c' : vrfCache) (key v : GoString) (f : ComputeFn σ)
    (w : σ) (h : lookupStep c key = some (v, c')) :
    getOrCompute c key f w = .ok ((v, none), c', w) := by
  simp only [getOrCompute, h]

theorem getOrCompute_miss_ok {σ : Type} (c : vrfCache) (key val : GoString) (f : ComputeFn σ)
    (w w' : σ) (h : lookupStep c key = none) (hf : f w = .ok ((val, none), w')) :
    getOrCompute c key f w =
      .ok (((insertStep c key val).1, none), (insertStep c key val).2, w') := by
  simp only [getOrCompute, h, hf]

theorem getOrCompute_miss_err {σ : Type} (c : vrfCache) (key val : GoString) (e : GoError)
    (f : ComputeFn σ) (w w' : σ) (h : lookupStep c key = none)
    (hf : f w = .ok ((val, some e), w')) :
    getOrCompute c key f w = .ok (([], some e), c, w') := by
  simp only [getOrCompute, h, hf]

theorem getOrCompute_miss_panic {σ : Type} (c : vrfCache) (key : GoString) (p : GoPanic)
    (f : ComputeFn σ) (w : σ) (h : lookupStep c key = none) (hf : f w = .error p) :
    getOrCompute c key f w = .error p := by
  simp only [getOrCompute, h, hf]

theorem lookupStep_none (c : vrfCache) (key : GoString) (h : c.cache.lookup key = none) :
    lookupStep c key = none := by
  simp only [lookupStep, h]

theorem lookupStep_some (c : vrfCache) (key : GoString) (el : Element)
    (h : c.cache.lookup key = some el) :
    lookupStep c key = some (el.Value.value, { c with ll := MoveToFront c.ll el }) := by
  simp only [lookupStep, h]

/-- What a returning call of `getOrCompute` can have done: a hit, a miss whose
compute fails, or a miss whose compute succeeds. -/
theorem getOrCompute_cases {σ : Type} (c c' : vrfCache) (key : GoString) (f : ComputeFn σ)
    (w w' : σ) (r : GoString × Option GoError)
    (h : getOrCompute c key f w = .ok (r, c', w')) :
    (∃ el, c.cache.lookup key = some el ∧ r = (el.Value.value, none) ∧
      c' = { c with ll := MoveToFront c.ll el } ∧ w' = w) ∨
    (c.cache.lookup key = none ∧ ∃ val e, f w = .ok ((val, some e), w') ∧
      r = ([], some e) ∧ c' = c) ∨
    (c.cache.lookup key = none ∧ ∃ val, f w = .ok ((val, none), w') ∧
      r = ((insertStep c key val).1, none) ∧ c' = (insertStep c key val).2) := by
  cases hl : c.cache.lookup key with
  | some el =>
    left
    rw [getOrCompute_hit c _ key _ f w (lookupStep_some c key el hl)] at h
    simp only [Except.ok.injEq, Prod.mk.injEq] at h
    exact ⟨el, rfl, h.1.symm, h.2.1.symm, h.2.2.symm⟩
  | none =>
    right
    have hs := lookupStep_none c key hl
    cases hf : f w with
    | error p =>
      rw [getOrCompute_miss_panic c key p f w hs hf] at h
      cases h
    | ok x =>
      obtain ⟨⟨val, err⟩, w₁⟩ := x
      cases err with
      | some e =>
        left
        rw [getOrCompute_miss_err c key val e f w w₁ hs hf] at h
        simp only [Except.ok.injEq, Prod.mk.injEq] at h
        obtain ⟨h1, h2, h3⟩ := h
        subst h3
        exact ⟨rfl, val, e, rfl, h1.symm, h2.symm⟩
      | none =>
        right
        rw [getOrCompute_miss_ok c key val f w w₁ hs hf] at h
        simp only [Except.ok.injEq, Prod.mk.injEq] at h
        obtain ⟨h1, h2, h3⟩ := h
        subst h3
        exact ⟨rfl, val, rfl, h1.symm, h2.symm⟩

theorem insertStep_present (c : vrfCache) (key val : GoString) (el : Element)
    (h : c.cache.lookup key = some el) :
    insertStep c key val = (el.Value.value, promoted c el) := by
  simp only [insertStep, h, promoted]

theorem insertStep_absent (c : vrfCache) (key val : GoString)
    (h : c.cache.lookup key = none) :
    insertStep c key val =
      (val, if ((c.ll.length + 1 : Nat) : Int) > c.capacity then
        evicted (pushed c key val) ((Element.of key val :: c.ll).getLast (by simp))
      else pushed c key val) := by
  have hb : Back (Element.of key val :: c.ll) =
      some ((Element.of key val :: c.ll).getLast (by simp)) :=
    List.getLast?_eq_getLast _ _
  simp only [Element.of] at hb
  by_cases hc : ((c.ll.length + 1 : Nat) : Int) > c.capacity
  · simp only [insertStep, h, PushFront, Len, List.length_cons, hc, if_true, hb, evicted,
      pushed, Remove, Element.of]
  · simp only [insertStep, h, PushFront, Len, List.length_cons, hc, if_false, pushed,
      Element.of]

theorem wf_newVrfCache (cap : Int) : WellFormed (newVrfCache cap) := by
  constructor
  · simp [vrfCache.keys, newVrfCache]
  · intro k el
    simp [newVrfCache, AList.lookup_empty]

theorem mem_keys_of_mem (c : vrfCache) (el : Element) (h : el ∈ c.ll) : el.key ∈ c.keys :=
  List.mem_map_of_mem _ h

theorem ll_nodup (c : vrfCache) (h : WellFormed c) : c.ll.Nodup :=
  List.Nodup.of_map _ h.nodup

theorem key_inj (c : vrfCache) (h : WellFormed c) (a b : Element) (ha : a ∈ c.ll)
    (hb : b ∈ c.ll) (hk : a.key = b.key) : a = b :=
  List.inj_on_of_nodup_map h.nodup ha hb hk

theorem lookup_none_iff (c : vrfCache) (h : WellFormed c) (key : GoString) :
    c.cache.lookup key = none ↔ key ∉ c.keys := by
  constructor
  · intro hn hk
    obtain ⟨el, hel, hkey⟩ := List.mem_map.1 hk
    have := (h.agree key el).2 ⟨hel, hkey⟩
    rw [hn] at this
    cases this
  · intro hk
    cases hl : c.cache.lookup key with
    | none => rfl
    | some el =>
      obtain ⟨hel, hkey⟩ := (h.agree key el).1 hl
      exact absurd (hkey ▸ mem_keys_of_mem c el hel) hk

theorem wf_promoted (c : vrfCache) (h : WellFormed c) (el : Element) :
    WellFormed (promoted c el) := by
  by_cases hel : el ∈ c.ll
  · have hp : (el :: c.ll.erase el).Perm c.ll := (List.perm_cons_erase hel).symm
    constructor
    · have : (promoted c el).keys = (el :: c.ll.erase el).map Element.key := by
        simp [promoted, vrfCache.keys, MoveToFront, hel]
      rw [this]
      exact (List.Perm.nodup_iff (hp.map _)).2 h.nodup
    · intro k e
      have : (promoted c el).ll = el :: c.ll.erase el := by simp [promoted, MoveToFront, hel]
      rw [this, hp.mem_iff]
      exact h.agree k e
  · have : promoted c el = c := by simp [promoted, MoveToFront, hel]
    rw [this]; exact h

theorem wf_pushed (c : vrfCache) (h : WellFormed c) (key val : GoString)
    (hk : key ∉ c.keys) : WellFormed (pushed c key val) := by
  constructor
  · show ((Element.of key val :: c.ll).map Element.key).Nodup
    rw [List.map_cons, List.nodup_cons]
    exact ⟨hk, h.nodup⟩
  · intro k el
    show (c.cache.insert key (Element.of key val)).lookup k = some el ↔
      (el ∈ Element.of key val :: c.ll ∧ el.key = k)
    by_cases hkk : k = key
    · subst hkk
      rw [AList.lookup_insert]
      constructor
      · intro he
        simp only [Option.some.injEq] at he
        subst he
        exact ⟨List.mem_cons_self _ _, rfl⟩
      · rintro ⟨hm, hkey⟩
        rcases List.mem_cons.1 hm with rfl | hm
        · rfl
        · exact absurd (hkey ▸ mem_keys_of_mem c el hm) hk
    · rw [AList.lookup_insert_ne hkk, h.agree k el]
      constructor
      · rintro ⟨hm, hkey⟩
        exact ⟨List.mem_cons_of_mem _ hm, hkey⟩
      · rintro ⟨hm, hkey⟩
        rcases List.mem_cons.1 hm with rfl | hm
        · exact absurd hkey.symm hkk
        · exact ⟨hm, hkey⟩

theorem wf_evicted (c : vrfCache) (h : WellFormed c) (t : Element) (ht : t ∈ c.ll) :
    WellFormed (evicted c t) := by
  constructor
  · show ((c.ll.erase t).map Element.key).Nodup
    exact List.Nodup.sublist ((List.erase_sublist t c.ll).map _) h.nodup
  · intro k el
    show (c.cache.erase t.Value.key).lookup k = some el ↔ (el ∈ c.ll.erase t ∧ el.key = k)
    by_cases hkk : k = t.Value.key
    · subst hkk
      rw [AList.lookup_erase]
      constructor
      · intro he; cases he
      · rintro ⟨hm, hkey⟩
        have hm' : el ∈ c.ll := List.mem_of_mem_erase hm
        have : el = t := key_inj c h el t hm' ht hkey
        subst this
        exact absurd hm ((ll_nodup c h).not_mem_erase)
    · rw [AList.lookup_erase_ne hkk, h.agree k el]
      constructor
      · rintro ⟨hm, hkey⟩
        refine ⟨(List.mem_erase_of_ne ?_).2 hm, hkey⟩
        rintro rfl
        exact hkk hkey.symm
      · rintro ⟨hm, hkey⟩
        exact ⟨List.mem_of_mem_erase hm, hkey⟩

theorem erase_getLast {α : Type} [DecidableEq α] (l : List α) (hn : l.Nodup) (hl : l ≠ []) :
    l.erase (l.getLast hl) = l.dropLast := by
  have hd : l.dropLast ++ [l.getLast hl] = l := List.dropLast_append_getLast hl
  generalize l.getLast hl = x at hd
  have hnot : x ∉ l.dropLast := by
    intro hm
    rw [← hd] at hn
    exact (List.disjoint_of_nodup_append hn) hm (List.mem_singleton_self _)
  have h : l.erase x = (l.dropLast ++ [x]).erase x := by rw [hd]
  rw [h, List.erase_append_right _ hnot]
  simp

theorem mem_cache_iff (c : vrfCache) (h : WellFormed c) (k : GoString) :
    k ∈ c.cache.keys ↔ k ∈ c.keys := by
  rw [← AList.mem_keys, ← AList.lookup_isSome]
  constructor
  · intro hs
    obtain ⟨el, hel⟩ := Option.isSome_iff_exists.1 hs
    obtain ⟨hm, hk⟩ := (h.agree k el).1 hel
    exact hk ▸ mem_keys_of_mem c el hm
  · intro hk
    obtain ⟨el, hel, hkey⟩ := List.mem_map.1 hk
    rw [(h.agree k el).2 ⟨hel, hkey⟩]
    rfl

theorem keys_perm (c : vrfCache) (h : WellFormed c) : c.cache.keys.Perm c.keys :=
  (List.perm_ext_iff_of_nodup c.cache.keys_nodup h.nodup).2 (mem_cache_iff c h)

/-- In a well-formed cache the map has as many keys as the list has elements. -/
theorem mapLen_eq (c : vrfCache) (h : WellFormed c) : c.mapLen = c.ll.length := by
  have := (keys_perm c h).length_eq
  simpa [vrfCache.mapLen, vrfCache.keys, AList.keys, List.keys] using this

theorem promoted_length (c : vrfCache) (el : Element) :
    (promoted c el).ll.length = c.ll.length := by
  by_cases hel : el ∈ c.ll
  · have hp : (el :: c.ll.erase el).Perm c.ll := (List.perm_cons_erase hel).symm
    simpa [promoted, MoveToFront, hel] using hp.length_eq
  · simp [promoted, MoveToFront, hel]

theorem insertStep_absent_wf (c : vrfCache) (h : WellFormed c) (key val : GoString)
    (hl : c.cache.lookup key = none) : WellFormed (insertStep c key val).2 := by
  have hk := (lookup_none_iff c h key).1 hl
  have hp := wf_pushed c h key val hk
  rw [insertStep_absent c key val hl]
  by_cases hc : ((c.ll.length + 1 : Nat) : Int) > c.capacity
  · simp only [hc, if_true]
    exact wf_evicted _ hp _ (List.getLast_mem _)
  · simp only [hc, if_false]
    exact hp

theorem insertStep_absent_length (c : vrfCache) (key val : GoString)
    (hl : c.cache.lookup key = none) (hb : (c.ll.length : Int) ≤ c.capacity) :
    ((insertStep c key val).2.ll.length : Int) ≤ c.capacity := by
  rw [insertStep_absent c key val hl]
  by_cases hc : ((c.ll.length + 1 : Nat) : Int) > c.capacity
  · simp only [hc, if_true, evicted, pushed]
    rw [List.length_erase_of_mem (List.getLast_mem _)]
    simpa using hb
  · simp only [hc, if_false, pushed]
    simp only [List.length_cons]
    omega

theorem insertStep_capacity (c : vrfCache) (key val : GoString) :
    (insertStep c key val).2.capacity = c.capacity := by
  cases hl : c.cache.lookup key with
  | some el => rw [insertStep_present c key val el hl]; rfl
  | none =>
    rw [insertStep_absent c key val hl]
    by_cases hc : ((c.ll.length + 1 : Nat) : Int) > c.capacity
    · simp only [hc, if_true]; rfl
    · simp only [hc, if_false]; rfl

/-- A returning call of `getOrCompute` keeps the cache well formed, keeps its
capacity, and keeps the list within the capacity. -/
theorem getOrCompute_preserves {σ : Type} (c c' : vrfCache) (key : GoString)
    (f : ComputeFn σ) (w w' : σ) (r : GoString × Option GoError)
    (h : getOrCompute c key f w = .ok (r, c', w')) (hw : WellFormed c)
    (hb : (c.ll.length : Int) ≤ c.capacity) :
    WellFormed c' ∧ c'.capacity = c.capacity ∧ (c'.ll.length : Int) ≤ c'.capacity := by
  rcases getOrCompute_cases c c' key f w w' r h with
    ⟨el, -, -, hc, -⟩ | ⟨-, -, -, -, -, hc⟩ | ⟨hl, val, -, -, hc⟩
  · subst hc
    refine ⟨wf_promoted c hw el, rfl, ?_⟩
    have := promoted_length c el
    simp only [promoted] at this
    rw [this]; exact hb
  · subst hc
    exact ⟨hw, rfl, hb⟩
  · subst hc
    refine ⟨insertStep_absent_wf c hw key val hl, insertStep_capacity c key val, ?_⟩
    rw [insertStep_capacity]
    exact insertStep_absent_length c key val hl hb

theorem reachable_inv {σ : Type} (cap : Int) (hcap : 0 ≤ cap) (w₀ : σ) (c : vrfCache) (w : σ)
    (h : ReachableFrom (newVrfCache cap) w₀ c w) :
    WellFormed c ∧ c.capacity = cap ∧ (c.ll.length : Int) ≤ c.capacity := by
  induction h with
  | start => exact ⟨wf_newVrfCache cap, rfl, by simpa [newVrfCache] using hcap⟩
  | call op _ hstep ih =>
    obtain ⟨hw, hc, hb⟩ := ih
    obtain ⟨hw', hc', hb'⟩ := getOrCompute_preserves _ _ _ _ _ _ _ hstep hw hb
    exact ⟨hw', hc'.trans hc, hb'⟩

/-- C8. Cache bound: for a cache created by `newVrfCache(cap)` with `cap ≥ 1`,
after any sequence of `getOrCompute` calls the recency list and the key map
each hold at most `cap` entries. -/
theorem cache_bound {σ : Type} (cap : Int) (hcap : 1 ≤ cap) (w₀ : σ) (c : vrfCache) (w : σ)
    (h : ReachableFrom (newVrfCache cap) w₀ c w) :
    (c.ll.length : Int) ≤ cap ∧ (c.mapLen : Int) ≤ cap := by
  obtain ⟨hw, hc, hb⟩ := reachable_inv cap (by omega) w₀ c w h
  rw [mapLen_eq c hw, ← hc]
  exact ⟨hb, hb⟩

theorem runCalls_reachable {σ : Type} (c₀ : vrfCache) (w₀ : σ) (ops : List (Call σ)) :
    ∀ (c : vrfCache) (w : σ) (c' : vrfCache) (w' : σ), ReachableFrom c₀ w₀ c w →
      runCalls c w ops = .ok (c', w') → ReachableFrom c₀ w₀ c' w' := by
  induction ops with
  | nil =>
    intro c w c' w' hr h
    simp only [runCalls, Except.ok.injEq, Prod.mk.injEq] at h
    obtain ⟨rfl, rfl⟩ := h
    exact hr
  | cons op ops ih =>
    intro c w c' w' hr h
    simp only [runCalls] at h
    cases hg : getOrCompute c op.1 op.2 w with
    | error p => rw [hg] at h; cases h
    | ok x =>
      obtain ⟨r, c₁, w₁⟩ := x
      rw [hg] at h
      exact ih c₁ w₁ c' w' (ReachableFrom.call op hr hg) h

theorem cache_bound_witness :
    (1 : Int) ≤ 1 ∧
    ∃ c : vrfCache, runCalls (newVrfCache 1) (0 : Nat)
        [([97], countingCompute [1]), ([98], countingCompute [2]), ([98], countingCompute [3])] =
          .ok (c, 2) ∧
      (c.ll.length : Int) ≤ 1 ∧ (c.mapLen : Int) ≤ 1 := by
  refine ⟨le_refl _, ?_⟩
  have hrun : ∃ c : vrfCache, runCalls (newVrfCache 1) (0 : Nat)
      [([97], countingCompute [1]), ([98], countingCompute [2]), ([98], countingCompute [3])] =
        .ok (c, 2) := ⟨_, rfl⟩
  obtain ⟨c, hc⟩ := hrun
  exact ⟨c, hc, cache_bound 1 (le_refl _) 0 c 2
    (runCalls_reachable _ _ _ _ _ _ _ ReachableFrom.start hc)⟩

theorem keys_length (c : vrfCache) : c.keys.length = c.ll.length := by
  simp [vrfCache.keys]

/-- A miss with a successful compute puts the key at the front and, when the
list outgrows the capacity, drops the key at the back. -/
theorem getOrCompute_miss_keys {σ : Type} (c : vrfCache) (hw : WellFormed c) (key v : GoString)
    (hk : key ∉ c.keys) (f : ComputeFn σ) (w w' : σ) (hf : f w = .ok ((v, none), w')) :
    ∃ c', getOrCompute c key f w = .ok ((v, none), c', w') ∧ WellFormed c' ∧
      c'.capacity = c.capacity ∧
      c'.keys = if ((c.ll.length + 1 : Nat) : Int) > c.capacity then (key :: c.keys).dropLast
        else key :: c.keys := by
  have hl := (lookup_none_iff c hw key).2 hk
  have hg := getOrCompute_miss_ok c key v f w w' (lookupStep_none c key hl) hf
  have hwf := insertStep_absent_wf c hw key v hl
  have hcap := insertStep_capacity c key v
  have hi := insertStep_absent c key v hl
  rw [hi] at hg hwf hcap
  refine ⟨_, hg, hwf, hcap, ?_⟩
  by_cases hc : ((c.ll.length + 1 : Nat) : Int) > c.capacity
  · simp only [hc, if_true]
    have hnd : (Element.of key v :: c.ll).Nodup := ll_nodup _ (wf_pushed c hw key v hk)
    show ((Element.of key v :: c.ll).erase _).map Element.key = _
    rw [erase_getLast _ hnd, List.map_dropLast]
    rfl
  · simp only [hc, if_false]
    rfl

theorem runCalls_append {σ : Type} (l₁ l₂ : List (Call σ)) :
    ∀ (c : vrfCache) (w : σ) (c₁ : vrfCache) (w₁ : σ), runCalls c w l₁ = .ok (c₁, w₁) →
      runCalls c w (l₁ ++ l₂) = runCalls c₁ w₁ l₂ := by
  induction l₁ with
  | nil =>
    intro c w c₁ w₁ h
    simp only [runCalls, Except.ok.injEq, Prod.mk.injEq] at h
    obtain ⟨rfl, rfl⟩ := h
    rfl
  | cons op ops ih =>
    intro c w c₁ w₁ h
    simp only [runCalls, List.cons_append] at h ⊢
    cases hg : getOrCompute c op.1 op.2 w with
    | error p => rw [hg] at h; cases h
    | ok x =>
      obtain ⟨r, c₂, w₂⟩ := x
      rw [hg] at h
      simp only [hg]
      exact ih c₂ w₂ c₁ w₁ h

/-- Distinct new keys inserted into a cache with room for all of them pile up at
the front, the latest first. -/
theorem runCalls_fill {σ : Type} (ops : List (Call σ)) :
    ∀ (c : vrfCache) (w : σ), WellFormed c → (∀ key ∈ ops.map Prod.fst, key ∉ c.keys) →
      (ops.map Prod.fst).Nodup → ((c.ll.length + ops.length : Nat) : Int) ≤ c.capacity →
      (∀ op ∈ ops, Succeeds op.2) →
      ∃ c' w', runCalls c w ops = .ok (c', w') ∧ WellFormed c' ∧ c'.capacity = c.capacity ∧
        c'.keys = (ops.map Prod.fst).reverse ++ c.keys := by
  induction ops with
  | nil =>
    intro c w hw _ _ _ _
    exact ⟨c, w, rfl, hw, rfl, by simp⟩
  | cons op ops ih =>
    intro c w hw hdis hnd hcap hs
    obtain ⟨v, w₁, hf⟩ := hs op (List.mem_cons_self _ _) w
    have hk : op.1 ∉ c.keys :=
      hdis op.1 (List.mem_map_of_mem Prod.fst (List.mem_cons_self _ _))
    obtain ⟨c₁, hg, hw₁, hc₁, hkeys⟩ := getOrCompute_miss_keys c hw op.1 v hk op.2 w w₁ hf
    have hno : ¬ ((c.ll.length + 1 : Nat) : Int) > c.capacity := by
      simp only [List.length_cons] at hcap
      push_cast at hcap ⊢
      omega
    simp only [hno, if_false] at hkeys
    rw [List.map_cons, List.nodup_cons] at hnd
    have hlen₁ : c₁.ll.length = c.ll.length + 1 := by
      rw [← keys_length, hkeys, List.length_cons, keys_length]
    obtain ⟨c', w', hrun, hw', hc', hkeys'⟩ := ih c₁ w₁ hw₁
      (by
        intro key hkey
        rw [hkeys, List.mem_cons, not_or]
        refine ⟨?_, hdis key (List.mem_cons_of_mem _ hkey)⟩
        rintro rfl
        exact hnd.1 hkey)
      hnd.2
      (by
        rw [hc₁, hlen₁]
        simp only [List.length_cons] at hcap
        push_cast at hcap ⊢
        omega)
      (fun o ho => hs o (List.mem_cons_of_mem _ ho))
    refine ⟨c', w', ?_, hw', hc'.trans hc₁, ?_⟩
    · simp only [runCalls, hg]
      exact hrun
    · rw [hkeys', hkeys]
      simp

/-- C9. Eviction order: from an empty cache of capacity `k ≥ 1`, calls of
`getOrCompute` with succeeding computes on `k + 1` pairwise distinct keys leave
exactly the last `k` keys cached, the latest at the front; the first key, the
least recently used one, is the only one evicted. -/
theorem eviction_order {σ : Type} (k : Nat) (hk : 1 ≤ k) (ops : List (Call σ))
    (hlen : ops.length = k + 1) (hnd : (ops.map Prod.fst).Nodup)
    (hs : ∀ op ∈ ops, Succeeds op.2) (w : σ) :
    ∃ c' w', runCalls (newVrfCache k) w ops = .ok (c', w') ∧
      c'.keys = (ops.map Prod.fst).tail.reverse ∧
      (∀ key, (c'.cache.lookup key).isSome ↔ key ∈ (ops.map Prod.fst).tail) ∧
      (∀ x, (ops.map Prod.fst).head? = some x → c'.cache.lookup x = none) ∧
      c'.ll.length = k ∧ c'.mapLen = k ∧ c'.capacity = k := by
  have hne : ops ≠ [] := by
    intro h; rw [h] at hlen; simp at hlen
  obtain ⟨first, last, hfl⟩ : ∃ first last, ops = first ++ [last] :=
    ⟨ops.dropLast, ops.getLast hne, (List.dropLast_append_getLast hne).symm⟩
  subst hfl
  have hflen : first.length = k := by simpa using hlen
  have hfne : first ≠ [] := by
    intro h; rw [h] at hflen; simp at hflen; omega
  rw [List.map_append, List.nodup_append] at hnd
  obtain ⟨hnd₁, -, hdisj⟩ := hnd
  obtain ⟨c₁, w₁, hrun₁, hw₁, hc₁, hkeys₁⟩ := runCalls_fill first (newVrfCache k) w
    (wf_newVrfCache k) (fun key _ hm => List.not_mem_nil key hm) hnd₁
    (by simp [newVrfCache, hflen])
    (fun o ho => hs o (List.mem_append_left _ ho))
  have hkeys₁' : c₁.keys = (first.map Prod.fst).reverse := by
    simpa [vrfCache.keys, newVrfCache] using hkeys₁
  have hcap₁ : c₁.capacity = k := by simpa [newVrfCache] using hc₁
  have hlen₁ : c₁.ll.length = k := by
    rw [← keys_length, hkeys₁', List.length_reverse, List.length_map, hflen]
  obtain ⟨v, w₂, hf⟩ := hs last (by simp) w₁
  have hlast : last.1 ∉ c₁.keys := by
    rw [hkeys₁', List.mem_reverse]
    intro hm
    exact hdisj hm (by simp)
  obtain ⟨c₂, hg, hw₂, hc₂, hkeys₂⟩ :=
    getOrCompute_miss_keys c₁ hw₁ last.1 v hlast last.2 w₁ w₂ hf
  have hover : ((c₁.ll.length + 1 : Nat) : Int) > c₁.capacity := by
    rw [hlen₁, hcap₁]; push_cast; omega
  simp only [hover, if_true] at hkeys₂
  have hmne : first.map Prod.fst ≠ [] := by simpa using hfne
  have hkeys : c₂.keys = ((first ++ [last]).map Prod.fst).tail.reverse := by
    rw [hkeys₂, hkeys₁', List.map_append, List.tail_append_of_ne_nil hmne]
    rw [List.dropLast_cons_of_ne_nil (by simpa using hfne), List.dropLast_reverse]
    simp
  have hlen₂ : c₂.ll.length = k := by
    rw [← keys_length, hkeys, List.length_reverse, List.length_tail, List.length_map, hlen]
    rfl
  have hmem : ∀ key, (c₂.cache.lookup key).isSome ↔
      key ∈ ((first ++ [last]).map Prod.fst).tail := by
    intro key
    rw [AList.lookup_isSome, AList.mem_keys, mem_cache_iff c₂ hw₂, hkeys, List.mem_reverse]
  refine ⟨c₂, w₂, ?_, hkeys, hmem, ?_, hlen₂, ?_, ?_⟩
  · rw [runCalls_append first [last] _ _ _ _ hrun₁]
    simp only [runCalls, hg]
  · intro x hx
    cases hl : c₂.cache.lookup x with
    | none => rfl
    | some el =>
      exfalso
      have hin : x ∈ ((first ++ [last]).map Prod.fst).tail := (hmem x).1 (by rw [hl]; rfl)
      have hall : ((first ++ [last]).map Prod.fst).Nodup := by
        rw [List.map_append, List.nodup_append]
        exact ⟨hnd₁, by simp, hdisj⟩
      cases hm : (first ++ [last]).map Prod.fst with
      | nil => rw [hm] at hx; cases hx
      | cons y ys =>
        rw [hm] at hx hin hall
        simp only [List.head?_cons, Option.some.injEq] at hx
        subst hx
        exact (List.nodup_cons.1 hall).1 hin
  · rw [mapLen_eq c₂ hw₂, hlen₂]
  · rw [hc₂, hcap₁]

/-! ## The package-level cache -/

theorem vrfCompute_ok (input tok : GoString) (h : generateNoCache input = .ok (tok, none)) :
    vrfCompute input () = .ok ((tok, none), ()) := by
  unfold vrfCompute
  rw [h]
  rfl

attribute [irreducible] generateNoCache vrfCompute

theorem sound_newVrfCache (cap : Int) : CacheSound (newVrfCache cap) := by
  intro k el h
  simp [newVrfCache, AList.lookup_empty] at h

theorem sound_pushed (c : vrfCache) (hs : CacheSound c) (key tok : GoString)
    (hg : generateNoCache key = .ok (tok, none)) : CacheSound (pushed c key tok) := by
  intro k el h
  change (c.cache.insert key (Element.of key tok)).lookup k = some el at h
  by_cases hk : k = key
  · subst hk
    rw [AList.lookup_insert] at h
    simp only [Option.some.injEq] at h
    subst h
    exact hg
  · rw [AList.lookup_insert_ne hk] at h
    exact hs k el h

theorem sound_evicted (c : vrfCache) (hs : CacheSound c) (t : Element) :
    CacheSound (evicted c t) := by
  intro k el h
  change (c.cache.erase t.Value.key).lookup k = some el at h
  by_cases hk : k = t.Value.key
  · subst hk
    rw [AList.lookup_erase] at h
    cases h
  · rw [AList.lookup_erase_ne hk] at h
    exact hs k el h

/-- On a sound cache `getOrCompute` with the pipeline as compute function
returns the token of the pipeline, hit or miss, and leaves the cache sound. -/
theorem getOrCompute_sound (c : vrfCache) (hs : CacheSound c) (input tok : GoString)
    (hg : generateNoCache input = .ok (tok, none)) :
    ∃ c', getOrCompute c input (vrfCompute input) () = .ok ((tok, none), c', ()) ∧
      CacheSound c' ∧ c'.capacity = c.capacity := by
  cases hl : c.cache.lookup input with
  | some el =>
    have e : (Except.ok (el.Value.value, none) : Except GoPanic (GoString × Option GoError)) =
        Except.ok (tok, none) := (hs input el hl).symm.trans hg
    simp only [Except.ok.injEq, Prod.mk.injEq, and_true] at e
    refine ⟨promoted c el, ?_, fun k e' h => hs k e' h, rfl⟩
    rw [← e]
    exact getOrCompute_hit c _ input _ _ () (lookupStep_some c input el hl)
  | none =>
    have hgo := getOrCompute_miss_ok c input tok (vrfCompute input) () ()
      (lookupStep_none c input hl) (vrfCompute_ok input tok hg)
    have hi := insertStep_absent c input tok hl
    rw [hi] at hgo
    refine ⟨_, hgo, ?_, ?_⟩
    · by_cases hc : ((c.ll.length + 1 : Nat) : Int) > c.capacity
      · simp only [hc, if_true]
        exact sound_evicted _ (sound_pushed c hs input tok hg) _
      · simp only [hc, if_false]
        exact sound_pushed c hs input tok hg
    · by_cases hc : ((c.ll.length + 1 : Nat) : Int) > c.capacity
      · simp only [hc, if_true]; rfl
      · simp only [hc, if_false]; rfl

theorem GenerateVrf_some (p : Pkg) (c c' : vrfCache) (input : GoString)
    (r : GoString × Option GoError) (hp : p.defaultVrfCache = some c)
    (h : getOrCompute c input (vrfCompute input) () = .ok (r, c', ())) :
    GenerateVrf p input = .ok (r, { p with defaultVrfCache := some c' }) := by
  simp only [GenerateVrf, hp, h]

theorem GenerateVrf_nil (p : Pkg) (c' : vrfCache) (input : GoString)
    (r : GoString × Option GoError) (hp : p.defaultVrfCache = none)
    (h : getOrCompute (newVrfCache p.DefaultVrfCacheSize) input (vrfCompute input) () =
      .ok (r, c', ())) :
    GenerateVrf p input = .ok (r, { p with defaultVrfCache := some c' }) := by
  simp only [GenerateVrf, hp, h]

theorem GenerateVrf_sound (p : Pkg) (hs : PkgSound p) (input : GoString) :
    ∃ tok p', generateNoCache input = .ok (tok, none) ∧
      GenerateVrf p input = .ok ((tok, none), p') ∧ PkgSound p' := by
  obtain ⟨tok, hg⟩ := generateNoCache_ok input
  cases hp : p.defaultVrfCache with
  | some c =>
    obtain ⟨c', hgo, hs', -⟩ := getOrCompute_sound c (hs c hp) input tok hg
    refine ⟨tok, _, hg, GenerateVrf_some p c c' input _ hp hgo, ?_⟩
    intro c₁ h₁
    simp only [Option.some.injEq] at h₁
    subst h₁
    exact hs'
  | none =>
    obtain ⟨c', hgo, hs', -⟩ := getOrCompute_sound (newVrfCache p.DefaultVrfCacheSize)
      (sound_newVrfCache _) input tok hg
    refine ⟨tok, _, hg, GenerateVrf_nil p c' input _ hp hgo, ?_⟩
    intro c₁ h₁
    simp only [Option.some.injEq] at h₁
    subst h₁
    exact hs'

theorem sound_init (env : GoString) (Atoi : GoString → Int × Option GoError) :
    PkgSound (init env Atoi) := by
  intro c hc
  simp only [init, Option.some.injEq] at hc
  subst hc
  exact sound_newVrfCache _

theorem sound_SetVrfCacheSize (p : Pkg) (hs : PkgSound p) (size : Int) :
    PkgSound (SetVrfCacheSize p size) := by
  unfold SetVrfCacheSize
  by_cases h : size ≤ 0
  · simp only [h, if_true]; exact hs
  · simp only [h, if_false]
    intro c hc
    simp only [Option.some.injEq] at hc
    subst hc
    exact sound_newVrfCache _

theorem reachable_sound (p : Pkg) (h : Reachable p) : PkgSound p := by
  induction h with
  | init env Atoi => exact sound_init env Atoi
  | generate _ hstep ih =>
    obtain ⟨tok, p'', -, hgen, hs⟩ := GenerateVrf_sound _ ih _
    rw [hgen] at hstep
    simp only [Except.ok.injEq, Prod.mk.injEq] at hstep
    rw [← hstep.2]
    exact hs
  | setSize size _ ih => exact sound_SetVrfCacheSize _ ih size

/-- C1. Cache transparency: in every package state reachable from `init` by
`GenerateVrf` and `SetVrfCacheSize` calls, `GenerateVrf(s)` returns
`(generateNoCache(s), nil)`; hence in any two such states the same input gets
the same token. -/
theorem cache_transparent (p q : Pkg) (hp : Reachable p) (hq : Reachable q) (s : GoString) :
    ∃ tok p' q', generateNoCache s = .ok (tok, none) ∧
      GenerateVrf p s = .ok ((tok, none), p') ∧ GenerateVrf q s = .ok ((tok, none), q') := by
  obtain ⟨tok, p', hg, hgen, -⟩ := GenerateVrf_sound p (reachable_sound p hp) s
  obtain ⟨tok', q', hg', hgen', -⟩ := GenerateVrf_sound q (reachable_sound q hq) s
  have e : (Except.ok (tok', none) : Except GoPanic (GoString × Option GoError)) =
      Except.ok (tok, none) := hg'.symm.trans hg
  simp only [Except.ok.injEq, Prod.mk.injEq, and_true] at e
  subst e
  exact ⟨tok', p', q', hg, hgen, hgen'⟩

/-- C10. Cache hit: when the cache holds the entry `(key, v)`, `getOrCompute`
returns `(v, nil)` for every compute function without invoking it (the world is
untouched), and afterwards the map and the capacity are as before and the list
has the entry at the front with the other elements in their former order. -/
theorem cache_hit {σ : Type} (c : vrfCache) (key v : GoString)
    (hmap : c.cache.lookup key = some (Element.of key v)) (hll : Element.of key v ∈ c.ll)
    (f : ComputeFn σ) (w : σ) :
    ∃ pre post, c.ll = pre ++ Element.of key v :: post ∧ Element.of key v ∉ pre ∧
      getOrCompute c key f w =
        .ok ((v, none), { c with ll := Element.of key v :: (pre ++ post) }, w) := by
  obtain ⟨pre, post, hsplit, hpre⟩ := List.eq_append_cons_of_mem hll
  refine ⟨pre, post, hsplit, hpre, ?_⟩
  rw [getOrCompute_hit c _ key _ f w (lookupStep_some c key _ hmap)]
  have he : c.ll.erase (Element.of key v) = pre ++ post := by
    rw [hsplit, List.erase_append_right _ hpre, List.erase_cons_head]
  simp only [MoveToFront, hll, if_true, he]
  rfl

theorem cache_hit_witness :
    sampleCache.cache.lookup [97] = some (Element.of [97] [1]) ∧
    Element.of [97] [1] ∈ sampleCache.ll ∧
    ∃ pre post, sampleCache.ll = pre ++ Element.of [97] [1] :: post ∧
      Element.of [97] [1] ∉ pre ∧
      getOrCompute sampleCache [97] (fun _ : Nat => .error GoPanic.divideByZero) 0 =
        .ok (([1], none),
          { sampleCache with ll := Element.of [97] [1] :: (pre ++ post) }, 0) :=
  ⟨by decide, by decide,
    cache_hit sampleCache [97] [1] (by decide) (by decide)
      (fun _ : Nat => .error GoPanic.divideByZero) 0⟩

theorem succeeds_vrfCompute (input : GoString) : Succeeds (vrfCompute input) := by
  intro w
  obtain ⟨tok, hg⟩ := generateNoCache_ok input
  exact ⟨tok, (), vrfCompute_ok input tok hg⟩

/-- The state after a returning call is the state that the call returns. -/
theorem stateAfter_eq (p p' : Pkg) (input : GoString) (r : GoString × Option GoError)
    (h : GenerateVrf p input = .ok (r, p')) : stateAfter p input = p' := by
  unfold stateAfter
  rw [h]

/-- The first call on an empty cache of capacity at least one is a miss: the
token is computed and its entry is pushed. -/
theorem GenerateVrf_first (p : Pkg) (cap : Int) (input tok : GoString)
    (hp : p.defaultVrfCache = some (newVrfCache cap)) (hcap : 1 ≤ cap)
    (hg : generateNoCache input = .ok (tok, none)) :
    GenerateVrf p input =
      .ok ((tok, none),
        { p with defaultVrfCache := some (pushed (newVrfCache cap) input tok) }) := by
  have hl : (newVrfCache cap).cache.lookup input = none := AList.lookup_empty _
  have hi : insertStep (newVrfCache cap) input tok =
      (tok, pushed (newVrfCache cap) input tok) := by
    rw [insertStep_absent _ _ _ hl]
    have hno : ¬ (((newVrfCache cap).ll.length + 1 : Nat) : Int) >
        (newVrfCache cap).capacity := by
      simp only [newVrfCache, List.length_nil]
      omega
    simp only [hno, if_false]
  have hgo := getOrCompute_miss_ok (newVrfCache cap) input tok (vrfCompute input) () ()
    (lookupStep_none _ _ hl) (vrfCompute_ok input tok hg)
  rw [hi] at hgo
  exact GenerateVrf_some p (newVrfCache cap) _ input _ hp hgo

theorem pkg₀_cache : pkg₀.defaultVrfCache = some (newVrfCache 1024) := rfl

theorem pkgAfterA_spec (tok : GoString) (hg : generateNoCache (str "a") = .ok (tok, none)) :
    GenerateVrf pkg₀ (str "a") = .ok ((tok, none), pkgAfterA) ∧
      pkgAfterA.defaultVrfCache = some (pushed (newVrfCache 1024) (str "a") tok) := by
  have hgen := GenerateVrf_first pkg₀ 1024 (str "a") tok pkg₀_cache (by decide) hg
  have hp : pkgAfterA = _ := stateAfter_eq pkg₀ _ (str "a") _ hgen
  rw [hp]
  exact ⟨hgen, rfl⟩

/-- The state `pkgAfterA` is what `GenerateVrf("a")` leaves behind after `init`,
and a lookup of `"a"` in its cache, which has one entry, is a hit. -/
theorem pkgAfterA_hit :
    (∃ r, GenerateVrf pkg₀ (str "a") = .ok (r, pkgAfterA)) ∧
      ∃ c v c', pkgAfterA.defaultVrfCache = some c ∧ c.ll.length = 1 ∧
        lookupStep c (str "a") = some (v, c') := by
  obtain ⟨tok, hg⟩ := generateNoCache_ok (str "a")
  obtain ⟨hgen, hc⟩ := pkgAfterA_spec tok hg
  have hlook : (pushed (newVrfCache 1024) (str "a") tok).cache.lookup (str "a") =
      some (Element.of (str "a") tok) := AList.lookup_insert _
  exact ⟨⟨_, hgen⟩, _, _, _, hc, rfl, lookupStep_some _ _ _ hlook⟩

theorem reachable_pkgAfterA : Reachable pkgAfterA := by
  obtain ⟨⟨r, hgen⟩, -⟩ := pkgAfterA_hit
  exact Reachable.generate (Reachable.init [] noAtoi) hgen

/-- The token of `"a"` is returned both in the state after a first call
`GenerateVrf("a")`, where the lookup is a hit, and after a following
`SetVrfCacheSize(1)`, where the cache is empty again and the lookup a miss. -/
theorem cache_transparent_witness :
    Reachable pkgAfterA ∧ Reachable (SetVrfCacheSize pkgAfterA 1) ∧
    (∃ r, GenerateVrf pkg₀ (str "a") = .ok (r, pkgAfterA)) ∧
    (∃ c v c', pkgAfterA.defaultVrfCache = some c ∧ c.ll.length = 1 ∧
      lookupStep c (str "a") = some (v, c')) ∧
    (∃ c, (SetVrfCacheSize pkgAfterA 1).defaultVrfCache = some c ∧ c.ll = [] ∧
      lookupStep c (str "a") = none) ∧
    ∃ tok p' q', generateNoCache (str "a") = .ok (tok, none) ∧
      GenerateVrf pkgAfterA (str "a") = .ok ((tok, none), p') ∧
      GenerateVrf (SetVrfCacheSize pkgAfterA 1) (str "a") = .ok ((tok, none), q') :=
  ⟨reachable_pkgAfterA, Reachable.setSize 1 reachable_pkgAfterA, pkgAfterA_hit.1,
    pkgAfterA_hit.2,
    ⟨newVrfCache 1, rfl, rfl, lookupStep_none _ _ (AList.lookup_empty _)⟩,
    cache_transparent pkgAfterA (SetVrfCacheSize pkgAfterA 1) reachable_pkgAfterA
      (Reachable.setSize 1 reachable_pkgAfterA) (str "a")⟩

theorem runCalls_two {σ : Type} (c c₁ c₂ : vrfCache) (w w₁ w₂ : σ) (op₁ op₂ : Call σ)
    (r₁ r₂ : GoString × Option GoError)
    (h₁ : getOrCompute c op₁.1 op₁.2 w = .ok (r₁, c₁, w₁))
    (h₂ : getOrCompute c₁ op₂.1 op₂.2 w₁ = .ok (r₂, c₂, w₂)) :
    runCalls c w [op₁, op₂] = .ok (c₂, w₂) := by
  simp only [runCalls, h₁, h₂]

theorem str_a_ne_b : [str "a", str "b"].Nodup := by decide

theorem eviction_order_witness :
    ∃ ta tb p₂ p₃ c,
      GenerateVrf (SetVrfCacheSize pkg₀ 1) (str "a") = .ok ((ta, none), p₂) ∧
      GenerateVrf p₂ (str "b") = .ok ((tb, none), p₃) ∧
      GetVrfCacheSize p₃ = 1 ∧ p₃.defaultVrfCache = some c ∧ c.keys = [str "b"] ∧
      c.cache.lookup (str "a") = none ∧
      ∃ r c', getOrCompute c (str "a") (countingCompute ta) 0 = .ok (r, c', 1) := by
  obtain ⟨ta, ha⟩ := generateNoCache_ok (str "a")
  obtain ⟨tb, hb⟩ := generateNoCache_ok (str "b")
  obtain ⟨c₁, h₁, s₁, cap₁⟩ := getOrCompute_sound (newVrfCache 1) (sound_newVrfCache 1)
    (str "a") ta ha
  obtain ⟨c₂, h₂, -, cap₂⟩ := getOrCompute_sound c₁ s₁ (str "b") tb hb
  obtain ⟨c', w', hrun, hkeys, -, hfirst, -, -, -⟩ := eviction_order 1 (le_refl 1)
    [(str "a", vrfCompute (str "a")), (str "b", vrfCompute (str "b"))] rfl str_a_ne_b
    (by
      intro op hop
      simp only [List.mem_cons, List.mem_singleton, List.not_mem_nil, or_false] at hop
      rcases hop with rfl | rfl
      · exact succeeds_vrfCompute _
      · exact succeeds_vrfCompute _) ()
  have hrun' : runCalls (newVrfCache ((1 : Nat) : Int)) ()
      [(str "a", vrfCompute (str "a")), (str "b", vrfCompute (str "b"))] = .ok (c₂, ()) :=
    runCalls_two (newVrfCache 1) c₁ c₂ () () () (str "a", vrfCompute (str "a"))
      (str "b", vrfCompute (str "b")) _ _ h₁ h₂
  rw [hrun'] at hrun
  simp only [Except.ok.injEq, Prod.mk.injEq] at hrun
  obtain ⟨rfl, -⟩ := hrun
  have hl : c₂.cache.lookup (str "a") = none := hfirst (str "a") rfl
  refine ⟨ta, tb, _, _, c₂,
    GenerateVrf_some (SetVrfCacheSize pkg₀ 1) (newVrfCache 1) c₁ (str "a") _ rfl h₁,
    GenerateVrf_some _ c₁ c₂ (str "b") _ rfl h₂, ?_, rfl, hkeys, hl, ?_⟩
  · show c₂.capacity = 1
    rw [cap₂, cap₁]; rfl
  · exact ⟨_, _, getOrCompute_miss_ok c₂ (str "a") ta (countingCompute ta) 0 1
      (lookupStep_none c₂ _ hl) rfl⟩


/-- C11. Failure is not cached: when the key is absent and the compute function
returns an error `e`, `getOrCompute` returns `("", e)` and leaves the cache
exactly as it was; a later call on the same key is again a miss that invokes
its compute function. -/
theorem failure_not_cached {σ : Type} (c : vrfCache) (key val : GoString) (e : GoError)
    (f : ComputeFn σ) (w w' : σ) (habs : c.cache.lookup key = none)
    (hf : f w = .ok ((val, some e), w')) :
    getOrCompute c key f w = .ok (([], some e), c, w') ∧ lookupStep c key = none ∧
      ∀ (v : GoString) (n : Nat), ∃ r c',
        getOrCompute c key (countingCompute v) n = .ok (r, c', n + 1) :=
  ⟨getOrCompute_miss_err c key val e f w w' (lookupStep_none c key habs) hf,
    lookupStep_none c key habs,
    fun v n => ⟨_, _, getOrCompute_miss_ok c key v (countingCompute v) n (n + 1)
      (lookupStep_none c key habs) rfl⟩⟩

theorem failure_not_cached_witness :
    sampleCache.cache.lookup [99] = none ∧
    failingCompute ⟨"boom"⟩ 0 = .ok (([], some ⟨"boom"⟩), 1) ∧
    getOrCompute sampleCache [99] (failingCompute ⟨"boom"⟩) 0 =
      .ok (([], some ⟨"boom"⟩), sampleCache, 1) ∧
    lookupStep sampleCache [99] = none ∧
    ∀ (v : GoString) (n : Nat), ∃ r c',
      getOrCompute sampleCache [99] (countingCompute v) n = .ok (r, c', n + 1) :=
  ⟨by decide, rfl,
    failure_not_cached sampleCache [99] [] ⟨"boom"⟩ (failingCompute ⟨"boom"⟩) 0 1
      (by decide) rfl⟩

/-- C12. Capacity round trip and wholesale replacement: for every `n > 0` and
every prior state, after `SetVrfCacheSize(n)` the call `GetVrfCacheSize()`
returns `n` and the package-level cache is a new, empty cache of capacity `n`,
in which every key is a miss. -/
theorem setSize_roundtrip (p : Pkg) (n : Int) (hn : 0 < n) :
    GetVrfCacheSize (SetVrfCacheSize p n) = n ∧
    (SetVrfCacheSize p n).DefaultVrfCacheSize = n ∧
    ∃ c, (SetVrfCacheSize p n).defaultVrfCache = some c ∧ c.ll = [] ∧ c.mapLen = 0 ∧
      c.capacity = n ∧ ∀ key, c.cache.lookup key = none ∧ lookupStep c key = none := by
  have h : ¬ n ≤ 0 := by omega
  have hs : SetVrfCacheSize p n =
      { DefaultVrfCacheSize := n, defaultVrfCache := some (newVrfCache n) } := by
    simp only [SetVrfCacheSize, h, if_false]
  rw [hs]
  refine ⟨rfl, rfl, newVrfCache n, rfl, rfl, rfl, rfl, fun key => ?_⟩
  have hl : (newVrfCache n).cache.lookup key = none := AList.lookup_empty key
  exact ⟨hl, lookupStep_none _ key hl⟩

theorem setSize_roundtrip_witness :
    (0 : Int) < 50 ∧
    GetVrfCacheSize (SetVrfCacheSize samplePkg 50) = 50 ∧
    (SetVrfCacheSize samplePkg 50).DefaultVrfCacheSize = 50 ∧
    ∃ c, (SetVrfCacheSize samplePkg 50).defaultVrfCache = some c ∧ c.ll = [] ∧
      c.mapLen = 0 ∧ c.capacity = 50 ∧
      ∀ key, c.cache.lookup key = none ∧ lookupStep c key = none :=
  ⟨by decide, setSize_roundtrip samplePkg 50 (by decide)⟩

/-- C13. The call `SetVrfCacheSize(n)` with `n ≤ 0` is a no-op: the package
state (the cache with its entries, their order and its capacity, and
`DefaultVrfCacheSize`) and the value of `GetVrfCacheSize()` are unchanged. -/
theorem setSize_nonpositive (p : Pkg) (n : Int) (hn : n ≤ 0) :
    SetVrfCacheSize p n = p ∧
    (SetVrfCacheSize p n).defaultVrfCache = p.defaultVrfCache ∧
    (SetVrfCacheSize p n).DefaultVrfCacheSize = p.DefaultVrfCacheSize ∧
    GetVrfCacheSize (SetVrfCacheSize p n) = GetVrfCacheSize p := by
  have hs : SetVrfCacheSize p n = p := by
    simp only [SetVrfCacheSize, hn, if_true]
  rw [hs]
  exact ⟨rfl, rfl, rfl, rfl⟩

theorem setSize_nonpositive_witness :
    (-3 : Int) ≤ 0 ∧
    SetVrfCacheSize samplePkg (-3) = samplePkg ∧
    (SetVrfCacheSize samplePkg (-3)).defaultVrfCache = samplePkg.defaultVrfCache ∧
    (SetVrfCacheSize samplePkg (-3)).DefaultVrfCacheSize = samplePkg.DefaultVrfCacheSize ∧
    GetVrfCacheSize (SetVrfCacheSize samplePkg (-3)) = GetVrfCacheSize samplePkg :=
  ⟨by decide, setSize_nonpositive samplePkg (-3) (by decide)⟩

theorem getOrCompute_wf {σ : Type} (c c' : vrfCache) (key : GoString)
    (f : ComputeFn σ) (w w' : σ) (r : GoString × Option GoError)
    (h : getOrCompute c key f w = .ok (r, c', w')) (hw : WellFormed c) : WellFormed c' := by
  rcases getOrCompute_cases c c' key f w w' r h with
    ⟨el, -, -, hc, -⟩ | ⟨-, -, -, -, -, hc⟩ | ⟨hl, val, -, -, hc⟩
  · subst hc; exact wf_promoted c hw el
  · subst hc; exact hw
  · subst hc; exact insertStep_absent_wf c hw key val hl

theorem reachable_wf {σ : Type} (cap : Int) (w₀ : σ) (c : vrfCache) (w : σ)
    (h : ReachableFrom (newVrfCache cap) w₀ c w) : WellFormed c := by
  induction h with
  | start => exact wf_newVrfCache cap
  | call op _ hstep ih => exact getOrCompute_wf _ _ _ _ _ _ _ hstep ih

theorem existsUnique_of_wf (c : vrfCache) (hw : WellFormed c) (k : GoString) :
    (c.cache.lookup k).isSome ↔ ∃! el, el ∈ c.ll ∧ el.key = k := by
  constructor
  · intro hs
    obtain ⟨el, hel⟩ := Option.isSome_iff_exists.1 hs
    obtain ⟨hm, hk⟩ := (hw.agree k el).1 hel
    exact ⟨el, ⟨hm, hk⟩, fun e' he' => key_inj c hw e' el he'.1 hm (he'.2.trans hk.symm)⟩
  · rintro ⟨el, ⟨hm, hk⟩, -⟩
    rw [(hw.agree k el).2 ⟨hm, hk⟩]
    rfl

/-- After an eviction the evicted key is in neither the list nor the map. -/
theorem eviction_removes (c : vrfCache) (hw : WellFormed c) (key val : GoString)
    (habs : c.cache.lookup key = none)
    (hover : ((c.ll.length + 1 : Nat) : Int) > c.capacity) :
    ∃ t, Back (Element.of key val :: c.ll) = some t ∧
      (insertStep c key val).2 = evicted (pushed c key val) t ∧
      (insertStep c key val).2.cache.lookup t.Value.key = none ∧
      t.key ∉ (insertStep c key val).2.keys ∧ t ∉ (insertStep c key val).2.ll := by
  have hk := (lookup_none_iff c hw key).1 habs
  have hp := wf_pushed c hw key val hk
  have hlast : (Element.of key val :: c.ll).getLast (by simp) ∈ (pushed c key val).ll :=
    List.getLast_mem _
  have he := wf_evicted _ hp _ hlast
  have hi : (insertStep c key val).2 =
      evicted (pushed c key val) ((Element.of key val :: c.ll).getLast (by simp)) := by
    rw [insertStep_absent c key val habs]
    simp only [hover, if_true]
  have hnone : (evicted (pushed c key val)
      ((Element.of key val :: c.ll).getLast (by simp))).cache.lookup
        ((Element.of key val :: c.ll).getLast (by simp)).Value.key = none :=
    AList.lookup_erase _ _
  refine ⟨_, List.getLast?_eq_getLast _ _, hi, ?_, ?_, ?_⟩
  · rw [hi]; exact hnone
  · rw [hi]; exact (lookup_none_iff _ he _).1 hnone
  · rw [hi]; exact (ll_nodup _ hp).not_mem_erase

/-- C17. Cache representation invariant: after any sequence of `getOrCompute`
calls on a cache created by `newVrfCache`, the recency list holds at most one
element per key, a key is in the map iff exactly one list element carries it,
and the map sends the key to that element; an eviction removes the evicted key
from the list and from the map. -/
theorem representation_invariant {σ : Type} (cap : Int) (w₀ : σ) (c : vrfCache) (w : σ)
    (h : ReachableFrom (newVrfCache cap) w₀ c w) :
    c.keys.Nodup ∧
    (∀ k, (c.cache.lookup k).isSome ↔ ∃! el, el ∈ c.ll ∧ el.key = k) ∧
    (∀ k el, c.cache.lookup k = some el ↔ (el ∈ c.ll ∧ el.key = k)) ∧
    (∀ key val, c.cache.lookup key = none → ((c.ll.length + 1 : Nat) : Int) > c.capacity →
      ∃ t, Back (Element.of key val :: c.ll) = some t ∧
        (insertStep c key val).2 = evicted (pushed c key val) t ∧
        (insertStep c key val).2.cache.lookup t.Value.key = none ∧
        t.key ∉ (insertStep c key val).2.keys ∧ t ∉ (insertStep c key val).2.ll) := by
  have hw := reachable_wf cap w₀ c w h
  exact ⟨hw.nodup, existsUnique_of_wf c hw, hw.agree,
    fun key val habs hover => eviction_removes c hw key val habs hover⟩

theorem representation_invariant_witness :
    ∃ c : vrfCache, runCalls (newVrfCache 1) (0 : Nat)
        [([97], countingCompute [1]), ([98], countingCompute [2]), ([98], countingCompute [3])] =
          .ok (c, 2) ∧
      c.keys.Nodup ∧
      (∀ k, (c.cache.lookup k).isSome ↔ ∃! el, el ∈ c.ll ∧ el.key = k) ∧
      (∀ k el, c.cache.lookup k = some el ↔ (el ∈ c.ll ∧ el.key = k)) ∧
      (∀ key val, c.cache.lookup key = none →
        ((c.ll.length + 1 : Nat) : Int) > c.capacity →
        ∃ t, Back (Element.of key val :: c.ll) = some t ∧
          (insertStep c key val).2 = evicted (pushed c key val) t ∧
          (insertStep c key val).2.cache.lookup t.Value.key = none ∧
          t.key ∉ (insertStep c key val).2.keys ∧ t ∉ (insertStep c key val).2.ll) := by
  have hrun : ∃ c : vrfCache, runCalls (newVrfCache 1) (0 : Nat)
      [([97], countingCompute [1]), ([98], countingCompute [2]), ([98], countingCompute [3])] =
        .ok (c, 2) := ⟨_, rfl⟩
  obtain ⟨c, hc⟩ := hrun
  exact ⟨c, hc, representation_invariant 1 0 c 2
    (runCalls_reachable _ _ _ _ _ _ _ ReachableFrom.start hc)⟩

theorem pushed_head_survives (c : vrfCache) (hw : WellFormed c) (key val : GoString)
    (habs : c.cache.lookup key = none) (hcap : 1 ≤ c.capacity) :
    (insertStep c key val).2.ll.head? = some (Element.of key val) ∧
      (insertStep c key val).2.cache.lookup key = some (Element.of key val) := by
  have hk := (lookup_none_iff c hw key).1 habs
  have hp := wf_pushed c hw key val hk
  rw [insertStep_absent c key val habs]
  by_cases hover : ((c.ll.length + 1 : Nat) : Int) > c.capacity
  · simp only [hover, if_true]
    have hne : c.ll ≠ [] := by
      intro h0
      rw [h0] at hover
      simp at hover
      omega
    have hnd : (Element.of key val :: c.ll).Nodup := ll_nodup _ hp
    have hlast : (Element.of key val :: c.ll).getLast (by simp) = c.ll.getLast hne :=
      List.getLast_cons hne
    have hmem : c.ll.getLast hne ∈ c.ll := List.getLast_mem hne
    have hkey : (c.ll.getLast hne).Value.key ≠ key := by
      intro h
      exact hk (h ▸ mem_keys_of_mem c _ hmem)
    constructor
    · show ((Element.of key val :: c.ll).erase _).head? = _
      rw [erase_getLast _ hnd, List.dropLast_cons_of_ne_nil hne]
      rfl
    · show ((c.cache.insert key (Element.of key val)).erase _).lookup key = _
      rw [hlast, AList.lookup_erase_ne (Ne.symm hkey), AList.lookup_insert]
  · simp only [hover, if_false]
    exact ⟨rfl, AList.lookup_insert _⟩

/-- C18. Re-check on insert: at the insert step of `getOrCompute`, entered
after a successful compute that returned `val`, a key that is already present
with value `v'` makes the call return `v'` (not `val`), moves the existing
element to the front, creates no second element for the key and leaves the
number of entries unchanged; a key that is still absent is inserted at the
front with `val`, which is returned. -/
theorem insert_recheck (c : vrfCache) (key val : GoString) (hw : WellFormed c)
    (hcap : 1 ≤ c.capacity) :
    (∀ el, c.cache.lookup key = some el →
      (insertStep c key val).1 = el.Value.value ∧
      (insertStep c key val).2.ll = el :: c.ll.erase el ∧
      (insertStep c key val).2.cache = c.cache ∧
      (insertStep c key val).2.keys.Nodup ∧
      (∀ e ∈ (insertStep c key val).2.ll, e.key = key → e = el) ∧
      (insertStep c key val).2.ll.length = c.ll.length ∧
      (insertStep c key val).2.mapLen = c.mapLen) ∧
    (c.cache.lookup key = none →
      (insertStep c key val).1 = val ∧
      (insertStep c key val).2.ll.head? = some (Element.of key val) ∧
      (insertStep c key val).2.cache.lookup key = some (Element.of key val)) ∧
    (∀ (σ : Type) (f : ComputeFn σ) (w w' : σ), lookupStep c key = none →
      f w = .ok ((val, none), w') →
      getOrCompute c key f w =
        .ok (((insertStep c key val).1, none), (insertStep c key val).2, w')) := by
  refine ⟨fun el hl => ?_, fun habs => ?_, fun σ f w w' hl hf =>
    getOrCompute_miss_ok c key val f w w' hl hf⟩
  · obtain ⟨hm, hk⟩ := (hw.agree key el).1 hl
    have hi := insertStep_present c key val el hl
    have hwp := wf_promoted c hw el
    have hll : (promoted c el).ll = el :: c.ll.erase el := by
      simp [promoted, MoveToFront, hm]
    rw [hi]
    refine ⟨rfl, hll, rfl, hwp.nodup, ?_, promoted_length c el, rfl⟩
    intro e he hek
    have hel : el ∈ (promoted c el).ll := by rw [hll]; exact List.mem_cons_self _ _
    exact key_inj _ hwp e el he hel (hek.trans hk.symm)
  · have h := pushed_head_survives c hw key val habs hcap
    refine ⟨?_, h.1, h.2⟩
    rw [insertStep_absent c key val habs]

theorem insert_recheck_witness :
    WellFormed sampleCache ∧ 1 ≤ sampleCache.capacity ∧
    (∀ el, sampleCache.cache.lookup [97] = some el →
      (insertStep sampleCache [97] [9]).1 = el.Value.value ∧
      (insertStep sampleCache [97] [9]).2.ll = el :: sampleCache.ll.erase el ∧
      (insertStep sampleCache [97] [9]).2.cache = sampleCache.cache ∧
      (insertStep sampleCache [97] [9]).2.keys.Nodup ∧
      (∀ e ∈ (insertStep sampleCache [97] [9]).2.ll, e.key = [97] → e = el) ∧
      (insertStep sampleCache [97] [9]).2.ll.length = sampleCache.ll.length ∧
      (insertStep sampleCache [97] [9]).2.mapLen = sampleCache.mapLen) ∧
    (sampleCache.cache.lookup [97] = none →
      (insertStep sampleCache [97] [9]).1 = [9] ∧
      (insertStep sampleCache [97] [9]).2.ll.head? = some (Element.of [97] [9]) ∧
      (insertStep sampleCache [97] [9]).2.cache.lookup [97] = some (Element.of [97] [9])) ∧
    (∀ (σ : Type) (f : ComputeFn σ) (w w' : σ), lookupStep sampleCache [97] = none →
      f w = .ok (([9], none), w') →
      getOrCompute sampleCache [97] f w =
        .ok (((insertStep sampleCache [97] [9]).1, none),
          (insertStep sampleCache [97] [9]).2, w')) := by
  have hrun : runCalls (newVrfCache 2) (0 : Nat)
      [([97], countingCompute [1]), ([98], countingCompute [2])] = .ok (sampleCache, 2) := rfl
  have hw : WellFormed sampleCache :=
    reachable_wf 2 0 sampleCache 2 (runCalls_reachable _ _ _ _ _ _ _ ReachableFrom.start hrun)
  exact ⟨hw, by decide, insert_recheck sampleCache [97] [9] hw (by decide)⟩

/-- A hit moves the key to the front of the key list and changes nothing else. -/
theorem getOrCompute_hit_keys {σ : Type} (c : vrfCache) (hw : WellFormed c) (key : GoString)
    (hk : key ∈ c.keys) (f : ComputeFn σ) (w : σ) :
    ∃ v c' ks₁ ks₂, getOrCompute c key f w = .ok ((v, none), c', w) ∧ WellFormed c' ∧
      c'.capacity = c.capacity ∧ c.keys = ks₁ ++ key :: ks₂ ∧ c'.keys = key :: (ks₁ ++ ks₂) := by
  obtain ⟨el, hel, hkey⟩ := List.mem_map.1 hk
  have hl := (hw.agree key el).2 ⟨hel, hkey⟩
  obtain ⟨pre, post, hsplit, hpre⟩ := List.eq_append_cons_of_mem hel
  have he : c.ll.erase el = pre ++ post := by
    rw [hsplit, List.erase_append_right _ hpre, List.erase_cons_head]
  refine ⟨el.Value.value, promoted c el, pre.map Element.key, post.map Element.key,
    getOrCompute_hit c _ key _ f w (lookupStep_some c key el hl), wf_promoted c hw el, rfl,
    ?_, ?_⟩
  · show c.ll.map Element.key = _
    rw [hsplit, List.map_append, List.map_cons, hkey]
  · show (MoveToFront c.ll el).map Element.key = _
    simp only [MoveToFront, hel, if_true, List.map_cons, he, List.map_append, hkey]

/-- C19. A hit protects an entry from eviction: after filling an empty cache of
capacity `k ≥ 2` with `k` distinct keys `x₁, …, x_k`, a call on `x₁` (a hit) and
then a call on a new key `y` (a miss) leave `x₁` and `y` cached and `x₂`
evicted: the entry that goes is the least recently accessed one. -/
theorem hit_protects {σ : Type} (k : Nat) (_hk : 2 ≤ k) (ops : List (Call σ))
    (hlen : ops.length = k) (hnd : (ops.map Prod.fst).Nodup)
    (hs : ∀ op ∈ ops, Succeeds op.2) (x₁ x₂ y : GoString) (rest : List GoString)
    (hx : ops.map Prod.fst = x₁ :: x₂ :: rest) (hy : y ∉ ops.map Prod.fst)
    (f g : ComputeFn σ) (hg : Succeeds g) (w : σ) :
    ∃ c' w', runCalls (newVrfCache k) w (ops ++ [(x₁, f), (y, g)]) = .ok (c', w') ∧
      (c'.cache.lookup x₁).isSome ∧ (c'.cache.lookup y).isSome ∧
      c'.cache.lookup x₂ = none ∧ c'.keys = y :: x₁ :: rest.reverse ∧ c'.ll.length = k := by
  obtain ⟨c₁, w₁, hrun₁, hw₁, hc₁, hkeys₁⟩ := runCalls_fill ops (newVrfCache k) w
    (wf_newVrfCache k) (fun key _ hm => List.not_mem_nil key hm) hnd
    (by simp [newVrfCache, hlen]) hs
  have hcap₁ : c₁.capacity = k := by simpa [newVrfCache] using hc₁
  have hkeys₁' : c₁.keys = rest.reverse ++ [x₂, x₁] := by
    have : c₁.keys = (ops.map Prod.fst).reverse := by
      simpa [vrfCache.keys, newVrfCache] using hkeys₁
    rw [this, hx]
    simp
  rw [hx] at hnd hy
  have hx₁ : x₁ ∉ rest.reverse ++ [x₂] := by
    have := (List.nodup_cons.1 hnd).1
    simp only [List.mem_cons, not_or] at this
    simp only [List.mem_append, List.mem_reverse, List.mem_singleton, not_or]
    exact ⟨this.2, this.1⟩
  have hx₂ : x₂ ∉ rest := (List.nodup_cons.1 (List.nodup_cons.1 hnd).2).1
  obtain ⟨v₂, c₂, ks₁, ks₂, hg₂, hw₂, hc₂, hsplit, hkeys₂⟩ := getOrCompute_hit_keys c₁ hw₁ x₁
    (by rw [hkeys₁']; simp) f w₁
  have hkeys₂' : c₂.keys = x₁ :: (rest.reverse ++ [x₂]) := by
    have e : (rest.reverse ++ [x₂]) ++ x₁ :: [] = ks₁ ++ x₁ :: ks₂ := by
      rw [← hsplit, hkeys₁']; simp
    obtain ⟨e₁, -, e₂⟩ := (List.append_cons_inj_of_not_mem hx₁ (List.not_mem_nil x₁)).1 e
    rw [hkeys₂, ← e₁, ← e₂, List.append_nil]
  have hlen₂ : c₂.ll.length = k := by
    rw [← keys_length, hkeys₂']
    have := congrArg List.length hx
    simp only [List.length_map, List.length_cons, hlen] at this
    simp
    omega
  obtain ⟨v₃, w₃, hf₃⟩ := hg w₁
  have hy₂ : y ∉ c₂.keys := by
    rw [hkeys₂']
    simp only [List.mem_cons, not_or] at hy
    simp only [List.mem_cons, List.mem_append, List.mem_reverse, List.mem_singleton,
      List.not_mem_nil, or_false, not_or]
    exact ⟨hy.1, hy.2.2, hy.2.1⟩
  obtain ⟨c₃, hg₃, hw₃, hc₃, hkeys₃⟩ := getOrCompute_miss_keys c₂ hw₂ y v₃ hy₂ g w₁ w₃ hf₃
  have hover : ((c₂.ll.length + 1 : Nat) : Int) > c₂.capacity := by
    rw [hlen₂, hc₂, hcap₁]; push_cast; omega
  simp only [hover, if_true] at hkeys₃
  have hkeys₃' : c₃.keys = y :: x₁ :: rest.reverse := by
    rw [hkeys₃, hkeys₂']
    have : y :: x₁ :: (rest.reverse ++ [x₂]) = (y :: x₁ :: rest.reverse) ++ [x₂] := by simp
    rw [this, List.dropLast_concat]
  have hmem : ∀ key, (c₃.cache.lookup key).isSome ↔ key ∈ y :: x₁ :: rest.reverse := by
    intro key
    rw [AList.lookup_isSome, AList.mem_keys, mem_cache_iff c₃ hw₃, hkeys₃']
  refine ⟨c₃, w₃, ?_, (hmem x₁).2 (by simp), (hmem y).2 (by simp), ?_, hkeys₃', ?_⟩
  · rw [runCalls_append ops _ _ _ _ _ hrun₁]
    exact runCalls_two c₁ c₂ c₃ w₁ w₁ w₃ (x₁, f) (y, g) _ _ hg₂ hg₃
  · cases hl : c₃.cache.lookup x₂ with
    | none => rfl
    | some el =>
      exfalso
      have hin := (hmem x₂).1 (by rw [hl]; rfl)
      simp only [List.mem_cons, List.mem_reverse] at hin
      simp only [List.mem_cons, not_or] at hy
      have hne : x₁ ≠ x₂ := by
        have := (List.nodup_cons.1 hnd).1
        simp only [List.mem_cons, not_or] at this
        exact this.1
      rcases hin with h | h | h
      · exact hy.2.1 h.symm
      · exact hne h.symm
      · exact hx₂ h
  · rw [← keys_length, hkeys₃']
    have := congrArg List.length hx
    simp only [List.length_map, List.length_cons, hlen] at this
    simp
    omega

theorem hit_protects_witness :
    ∃ c' w', runCalls (newVrfCache 2) (0 : Nat)
        ([([97], countingCompute [1]), ([98], countingCompute [2])] ++
          [([97], countingCompute [3]), ([99], countingCompute [4])]) = .ok (c', w') ∧
      (c'.cache.lookup [97]).isSome ∧ (c'.cache.lookup [99]).isSome ∧
      c'.cache.lookup [98] = none ∧ c'.keys = [99] :: [97] :: ([] : List GoString).reverse ∧
      c'.ll.length = 2 :=
  hit_protects 2 (le_refl 2) [([97], countingCompute [1]), ([98], countingCompute [2])] rfl
    (by decide)
    (by
      intro op hop
      simp only [List.mem_cons, List.mem_singleton, List.not_mem_nil, or_false] at hop
      rcases hop with rfl | rfl
      · exact fun n => ⟨_, _, rfl⟩
      · exact fun n => ⟨_, _, rfl⟩)
    [97] [98] [99] [] rfl (by decide)
    (countingCompute [3]) (countingCompute [4]) (fun n => ⟨_, _, rfl⟩) 0

/-! ## The pipeline is injective -/

/-- Two inputs with the same token are equal. -/
theorem generateNoCache_inj (s₁ s₂ tok : GoString) (e₁ e₂ : Option GoError)
    (h₁ : generateNoCache s₁ = .ok (tok, e₁)) (h₂ : generateNoCache s₂ = .ok (tok, e₂)) :
    s₁ = s₂ := by
  obtain ⟨⟨k1, k2, k3, k4, k5⟩, ⟨s1, s2, s3, s4, s5⟩, ⟨p1, p2, p3, p4, p5⟩⟩ := keyMaterial_shape
  obtain ⟨c1, c2, c3, c4, c5⟩ := schedules_length
  obtain ⟨a1, a2, a3, a4, a5, a6, a7, a8, a9, a10,
    ⟨ha1, ha2, ha3, ha4, ha5, ha6, ha7, ha8, ha9, ha10⟩, -, hga⟩ := generateNoCache_steps s₁
  obtain ⟨b1, b2, b3, b4, b5, b6, b7, b8, b9, b10,
    ⟨hb1, hb2, hb3, hb4, hb5, hb6, hb7, hb8, hb9, hb10⟩, -, hgb⟩ := generateNoCache_steps s₂
  rw [hga] at h₁
  rw [hgb] at h₂
  simp only [Except.ok.injEq, Prod.mk.injEq] at h₁ h₂
  have e10 : a10 = b10 := btoa_inj a10 b10 (h₁.1.trans h₂.1.symm)
  subst e10
  have e9 : a9 = b9 := transform_inj a9 b9 _ _ _ _ a10 s5 p5 c5 scheduleE_injective ha10 hb10
  subst e9
  have e8 : a8 = b8 := rc4_inj _ a8 b8 a9 k5 ha9 hb9
  subst e8
  have e7 : a7 = b7 := transform_inj a7 b7 _ _ _ _ a8 s4 p4 c4 scheduleJ_injective ha8 hb8
  subst e7
  have e6 : a6 = b6 := rc4_inj _ a6 b6 a7 k4 ha7 hb7
  subst e6
  have e5 : a5 = b5 := transform_inj a5 b5 _ _ _ _ a6 s3 p3 c3 scheduleB_injective ha6 hb6
  subst e5
  have e4 : a4 = b4 := rc4_inj _ a4 b4 a5 k3 ha5 hb5
  subst e4
  have e3 : a3 = b3 := transform_inj a3 b3 _ _ _ _ a4 s2 p2 c2 scheduleY_injective ha4 hb4
  subst e3
  have e2 : a2 = b2 := rc4_inj _ a2 b2 a3 k2 ha3 hb3
  subst e2
  have e1 : a1 = b1 := transform_inj a1 b1 _ _ _ _ a2 s1 p1 c1 scheduleC_injective ha2 hb2
  subst e1
  exact rc4_inj _ s₁ s₂ a1 k1 ha1 hb1

/-- C15. Sensitivity: for all input strings `s₁ ≠ s₂` the token derived for
`s₁` differs from the token derived for `s₂`, by `generateNoCache` and, in any
reachable package states, by `GenerateVrf`. -/
theorem tokens_differ (s₁ s₂ : GoString) (hne : s₁ ≠ s₂) :
    ∃ t₁ t₂, generateNoCache s₁ = .ok (t₁, none) ∧ generateNoCache s₂ = .ok (t₂, none) ∧
      t₁ ≠ t₂ ∧
      ∀ p q, Reachable p → Reachable q → ∃ p' q',
        GenerateVrf p s₁ = .ok ((t₁, none), p') ∧ GenerateVrf q s₂ = .ok ((t₂, none), q') := by
  obtain ⟨t₁, h₁⟩ := generateNoCache_ok s₁
  obtain ⟨t₂, h₂⟩ := generateNoCache_ok s₂
  refine ⟨t₁, t₂, h₁, h₂, ?_, ?_⟩
  · intro e
    subst e
    exact hne (generateNoCache_inj s₁ s₂ t₁ none none h₁ h₂)
  · intro p q hp hq
    obtain ⟨u₁, p', hu₁, hgen₁, -⟩ := GenerateVrf_sound p (reachable_sound p hp) s₁
    obtain ⟨u₂, q', hu₂, hgen₂, -⟩ := GenerateVrf_sound q (reachable_sound q hq) s₂
    have e₁ : (Except.ok (u₁, none) : Except GoPanic (GoString × Option GoError)) =
        Except.ok (t₁, none) := hu₁.symm.trans h₁
    have e₂ : (Except.ok (u₂, none) : Except GoPanic (GoString × Option GoError)) =
        Except.ok (t₂, none) := hu₂.symm.trans h₂
    simp only [Except.ok.injEq, Prod.mk.injEq, and_true] at e₁ e₂
    subst e₁
    subst e₂
    exact ⟨p', q', hgen₁, hgen₂⟩

theorem tokens_differ_witness :
    str "a" ≠ str "b" ∧
    ∃ t₁ t₂, generateNoCache (str "a") = .ok (t₁, none) ∧
      generateNoCache (str "b") = .ok (t₂, none) ∧ t₁ ≠ t₂ ∧
      ∀ p q, Reachable p → Reachable q → ∃ p' q',
        GenerateVrf p (str "a") = .ok ((t₁, none), p') ∧
        GenerateVrf q (str "b") = .ok ((t₂, none), q') :=
  ⟨by decide, tokens_differ (str "a") (str "b") (by decide)⟩

end Mfire
